import Mathlib

/-!
# Verification of the totalshoping aggregation core

Shallow embedding, in Lean 4, of the price/brand/spec normalization and
merge logic of the `totalshoping` repository (files `models.py`, `app.py`,
`total.py`, `compuzone.py`, `guidecom.py`), together with proofs and
refutations of the specification's testable properties.

Python strings are modelled as `List Char`; Python's arbitrary-precision
ints as `Nat`; fallible code as `Except`/`Option`.  Each definition carries
a comment naming the Python function it embeds.
-/

namespace TotalShoping

/-! ## String primitives

Python string helpers used throughout the repository.  `isWs` models
Python's `\s` / `str.strip` whitespace class, `pyLower`/`pyUpper` model
`str.lower`/`str.upper` (ASCII case mapping; all non-ASCII characters in
this code base, Korean in particular, are case-invariant in Python too). -/

def isWs (c : Char) : Bool := c.isWhitespace

/-- ASCII lower-case mapping table for `str.lower`. -/
def lowerPairs : List (Char × Char) :=
  [('A','a'),('B','b'),('C','c'),('D','d'),('E','e'),('F','f'),('G','g'),
   ('H','h'),('I','i'),('J','j'),('K','k'),('L','l'),('M','m'),('N','n'),
   ('O','o'),('P','p'),('Q','q'),('R','r'),('S','s'),('T','t'),('U','u'),
   ('V','v'),('W','w'),('X','x'),('Y','y'),('Z','z')]

def pyLowerChar (c : Char) : Char :=
  (((lowerPairs.find? (fun p => p.1 = c)).map (·.2)).getD c)

def pyLower (l : List Char) : List Char := l.map pyLowerChar

def pyUpperChar (c : Char) : Char :=
  (((lowerPairs.find? (fun p => p.2 = c)).map (·.1)).getD c)

def pyUpper (l : List Char) : List Char := l.map pyUpperChar

/-- `str.strip()`: drop whitespace from both ends. -/
def pyStrip (l : List Char) : List Char :=
  (l.dropWhile isWs).rdropWhile isWs

/-- Worker for `collapseWs`; `inRun` records whether the previous character
was whitespace (in which case further whitespace is absorbed into the same
single output space). -/
def collapseWsAux (inRun : Bool) : List Char → List Char
  | [] => []
  | c :: rest =>
    if isWs c then
      if inRun then collapseWsAux true rest else ' ' :: collapseWsAux true rest
    else c :: collapseWsAux false rest

/-- One pass of `re.sub(r'\s+', ' ', s)`: every maximal whitespace run
becomes a single space. -/
def collapseWs (l : List Char) : List Char := collapseWsAux false l

/-- `Product._clean_string` (models.py:94-109):
`re.sub(r'\s+', ' ', str(value).strip())`. -/
def cleanString (l : List Char) : List Char := collapseWs (pyStrip l)

/-- Decimal value of a digit string: `int(digits)`. -/
def pyInt (ds : List Char) : Nat :=
  ds.foldl (fun a c => 10 * a + (c.toNat - 48)) 0

/-- All digit characters of `l` in order.  This equals the concatenation of
the runs found by `re.findall(r'\d+', l)` and the result of
`re.sub(r'[^\d]', '', l)`. -/
def digitsOf (l : List Char) : List Char := l.filter Char.isDigit

/-- Substring test: Python's `needle in haystack`. -/
def containsSub (w : List Char) : List Char → Bool
  | [] => w.isPrefixOf []
  | c :: rest => w.isPrefixOf (c :: rest) || containsSub w rest

/-- Decimal digit characters of `n`, most significant first (fuel-indexed so
that it reduces definitionally). -/
def natDigitChar (d : Nat) : Char :=
  (['0','1','2','3','4','5','6','7','8','9'].getD d '0')

def natToDecimalAux : Nat → Nat → List Char
  | 0, _ => []
  | fuel + 1, n =>
    if n < 10 then [natDigitChar n]
    else natToDecimalAux fuel (n / 10) ++ [natDigitChar (n % 10)]

def natToDecimal (n : Nat) : List Char := natToDecimalAux (n + 1) n

/-- Split a list into chunks of three (used by the `{:,}` format). -/
def chunk3 : List Char → List (List Char)
  | [] => []
  | [a] => [[a]]
  | [a, b] => [[a, b]]
  | a :: b :: c :: rest => [a, b, c] :: chunk3 rest

/-- Join with a separator, `sep.join(parts)`. -/
def joinSep (sep : List Char) : List (List Char) → List Char
  | [] => []
  | [u] => u
  | u :: v :: us => u ++ sep ++ joinSep sep (v :: us)

/-- Python's `f"{n:,}"`: decimal digits of `n` grouped in threes from the
right, separated by commas. -/
def commaFormat (n : Nat) : List Char :=
  joinSep [','] (((chunk3 (natToDecimal n).reverse).map List.reverse).reverse)

/-! ## `models.py` — the validated `Product` record

`Product.__post_init__` (models.py:64-92) validates `name`/`price`, cleans
every field with `_clean_string`, standardizes the price with
`_standardize_price` (models.py:111-148) and normalizes the specification
string with `_clean_specifications` (models.py:150-180). -/

def soldOutWords : List (List Char) :=
  ["품절".toList, "재고없음".toList, "일시품절".toList]

def inquiryWords : List (List Char) :=
  ["문의".toList, "전화".toList, "상담".toList]

def noPriceInfo : List Char := "가격 정보 없음".toList

def soldOut : List Char := "품절".toList

def priceInquiry : List Char := "가격 문의".toList

def noSpecInfo : List Char := "사양 정보 없음".toList

def wonChar : Char := '원'

/-- `Product._standardize_price` (models.py:111-148). -/
def standardizePrice (price : List Char) : List Char :=
  if price = [] then noPriceInfo
  else if soldOutWords.any (fun w => containsSub w (pyLower price)) then soldOut
  else if inquiryWords.any (fun w => containsSub w (pyLower price)) then priceInquiry
  else if price.any Char.isDigit then
    if price.getLast? = some wonChar then price
    else if digitsOf price = [] then price
    else commaFormat (pyInt (digitsOf price)) ++ [wonChar]
  else price

def consHead (c : Char) : List (List Char) → List (List Char)
  | [] => [[c]]
  | p :: ps => (c :: p) :: ps

/-- `specs.split('/')`. -/
def splitSlash : List Char → List (List Char)
  | [] => [[]]
  | c :: rest => if c = '/' then [] :: splitSlash rest else consHead c (splitSlash rest)

/-- The de-duplication loop of `_clean_specifications` (models.py:170-178):
keep a part when its lower-cased stripped key is non-empty and unseen. -/
def dedupSpecs (seen : List (List Char)) : List (List Char) → List (List Char)
  | [] => []
  | p :: ps =>
    if pyStrip (pyLower p) ∈ seen ∨ pyStrip (pyLower p) = [] then dedupSpecs seen ps
    else p :: dedupSpecs (pyStrip (pyLower p) :: seen) ps

def sepSpSlashSp : List Char := [' ', '/', ' ']

/-- The `spec_parts` list comprehension of `_clean_specifications`
(models.py:164): split on `'/'`, strip each part, drop empties. -/
def specParts (specs : List Char) : List (List Char) :=
  ((splitSlash specs).map pyStrip).filter (fun p => p ≠ [])

/-- `Product._clean_specifications` (models.py:150-180). -/
def cleanSpecifications (specs : List Char) : List Char :=
  if specs = [] then noSpecInfo
  else if specParts specs = [] then noSpecInfo
  else if dedupSpecs [] (specParts specs) = [] then noSpecInfo
  else joinSep sepSpSlashSp (dedupSpecs [] (specParts specs))

/-- A price string whose double space prevents the literal sentinel
"가격 정보 없음" from appearing in it — until `_clean_string` collapses the
whitespace. -/
def c10Price : List Char := "가격  정보 없음 123원".toList

/-- Validated product record (`models.Product` after `__post_init__`). -/
structure MProduct where
  name : List Char
  price : List Char
  specifications : List Char
  product_link : List Char
  site : List Char
deriving DecidableEq, Repr

def errEmptyName : List Char := "상품명은 비어있을 수 없습니다".toList

def errEmptyPrice : List Char := "가격 정보는 비어있을 수 없습니다".toList

/-- `models.Product` construction: `__post_init__` validation and
normalization; a raised `ValueError` is modelled as `Except.error`. -/
def mkProduct (name price specifications product_link site : List Char) :
    Except (List Char) MProduct :=
  if pyStrip name = [] then .error errEmptyName
  else if pyStrip price = [] then .error errEmptyPrice
  else .ok {
    name := cleanString name
    price := standardizePrice (cleanString price)
    specifications := cleanSpecifications (cleanString specifications)
    product_link := cleanString product_link
    site := cleanString site }

def unavailableTerms : List (List Char) :=
  ["품절".toList, "가격 문의".toList, "가격 정보 없음".toList, "재고없음".toList]

/-- `Product.is_price_available` (models.py:206-214), as a function of the
(already standardized) `price` field. -/
def isPriceAvailable (price : List Char) : Bool :=
  !(unavailableTerms.any (fun t => containsSub t price))

/-- `Product.get_numeric_price` (models.py:216-234), as a function of the
(already standardized) `price` field. -/
def getNumericPrice (price : List Char) : Option Nat :=
  if isPriceAvailable price then
    if digitsOf price = [] then none else some (pyInt (digitsOf price))
  else none

/-! ## `app.py` — price ranking for the result table (claim C1) -/

/-- `extract_price` (app.py:352-359): `re.sub(r'[^\d]', '', product.price)`
strips every non-digit; an empty remainder ranks as `float('inf')`
(modelled as `⊤ : WithTop Nat`), otherwise as the parsed integer. -/
def extract_price (price : List Char) : WithTop Nat :=
  let ds := digitsOf price
  if ds = [] then ⊤ else ((pyInt ds : Nat) : WithTop Nat)

/-! ## Manufacturer records and the two merge implementations (claim C6) -/

/-- A `{name, code}` manufacturer candidate as produced by
`get_search_options`. -/
structure BrandOpt where
  name : List Char
  code : List Char
deriving DecidableEq, Repr

/-- Normalized merge key: `mfr['name'].lower().strip()` (app.py:206). -/
def mfrKey (name : List Char) : List Char := pyStrip (pyLower name)

/-- One entry of the app.py merge dictionary: key, first-seen display name,
accumulated codes. -/
structure MfrEntry where
  key : List Char
  name : List Char
  codes : List (List Char)
deriving DecidableEq, Repr

/-- Dictionary lookup by merge key. -/
def findMfr : List MfrEntry → List Char → Option MfrEntry
  | [], _ => none
  | e :: es, key => if e.key = key then some e else findMfr es key

/-- One step of the app.py manufacturer merge loop (app.py:204-216): insert
a candidate, creating a fresh `codes` list on first sight of the key and
appending the code (if new) otherwise.  The Python dict (insertion-ordered,
unique keys) is modelled as an association list: an update rewrites the
(unique) entry with the key, an insert appends at the end. -/
def addMfr : List MfrEntry → BrandOpt → List MfrEntry
  | [], b => [{ key := mfrKey b.name, name := b.name, codes := [b.code] }]
  | e :: es, b =>
    if e.key = mfrKey b.name then
      (if b.code ∈ e.codes then e else { e with codes := e.codes ++ [b.code] }) :: es
    else e :: addMfr es b

/-- The whole app.py merge of `compuzone_mfrs + guidecom_mfrs`
(app.py:202-216). -/
def mergeMfrs (l : List BrandOpt) : List MfrEntry := l.foldl addMfr []

/-- Codes accumulated under a normalized name by the app.py merge. -/
def codesOf (m : List MfrEntry) (key : List Char) : List (List Char) :=
  ((findMfr m key).map (·.codes)).getD []

/-- One `all_brands[brand['name']] = brand['code']` step of
`IntegratedSearcher.get_all_brands` (total.py:1022-1052): plain dict
overwrite keyed by the raw display name. -/
def putBrand (m : List (List Char × List Char)) (b : BrandOpt) :
    List (List Char × List Char) :=
  if (m.find? (fun e => e.1 = b.name)).isSome then
    m.map (fun e => if e.1 = b.name then (e.1, b.code) else e)
  else m ++ [(b.name, b.code)]

/-- Lexicographic `<` on char lists (Python string comparison, by code
point). -/
def chLt : List Char → List Char → Bool
  | [], [] => false
  | [], _ :: _ => true
  | _ :: _, [] => false
  | a :: as, b :: bs => if a = b then chLt as bs else decide (a.toNat < b.toNat)

/-- `sorted(...)` comparison on `(name, code)` pairs (Python tuple order). -/
def pairLe (x y : List Char × List Char) : Bool :=
  if x.1 = y.1 then !(chLt y.2 x.2) else chLt x.1 y.1

def insertSorted (x : List Char × List Char) :
    List (List Char × List Char) → List (List Char × List Char)
  | [] => [x]
  | y :: ys => if pairLe x y then x :: y :: ys else y :: insertSorted x ys

def sortPairs : List (List Char × List Char) → List (List Char × List Char)
  | [] => []
  | x :: xs => insertSorted x (sortPairs xs)

/-- `IntegratedSearcher.get_all_brands` merge (total.py:1022-1052): fold the
per-site candidate lists (in site order) into one dict by raw name with
last-write-wins codes, then sort and keep at most 15. -/
def getAllBrandsMerge (sites : List (List BrandOpt)) :
    List (List Char × List Char) :=
  (sortPairs ((sites.flatten).foldl putBrand [])).take 15

/-- One-candidate site lists carrying different codes for the same brand
name ("ASUS"): compuzone uses the numeric maker id "9", guidecom uses the
normalized name "asus". -/
def c6SiteA : List BrandOpt := [⟨"ASUS".toList, "9".toList⟩]

def c6SiteB : List BrandOpt := [⟨"ASUS".toList, "asus".toList⟩]

/-! ## Bracket-tag removal: `re.sub(r'\[[^\]]+\]', repl, s)` -/

/-- Scan for the closing `]` of a bracket tag: returns the non-empty inner
text and the remainder after `]`, or `none` when the regex `\[[^\]]+\]`
does not match at this opening bracket. -/
def takeToClose (l : List Char) : Option (List Char × List Char) :=
  match l.dropWhile (fun d => d ≠ ']') with
  | ']' :: r =>
    if l.takeWhile (fun d => d ≠ ']') = [] then none
    else some (l.takeWhile (fun d => d ≠ ']'), r)
  | _ => none

theorem takeToClose_length {l r : List Char} {i : List Char}
    (h : takeToClose l = some (i, r)) : r.length < l.length := by
  unfold takeToClose at h
  split at h
  next tl heq =>
    split at h
    · exact absurd h (by simp)
    · simp only [Option.some.injEq, Prod.mk.injEq] at h
      obtain ⟨-, h2⟩ := h
      subst h2
      have hsuf : l.dropWhile (fun d => d ≠ ']') <:+ l := List.dropWhile_suffix _
      rw [heq] at hsuf
      have := hsuf.length_le
      simp only [List.length_cons] at this
      omega
  next => exact absurd h (by simp)

/-- `re.sub(r'\[[^\]]+\]', repl, s)`: replace every (leftmost,
non-overlapping) bracketed tag by `repl`. -/
def pySubBrackets (repl : List Char) : List Char → List Char
  | [] => []
  | c :: rest =>
    if c = '[' then
      match h : takeToClose rest with
      | some (_, r) => repl ++ pySubBrackets repl r
      | none => '[' :: pySubBrackets repl rest
    else c :: pySubBrackets repl rest
termination_by l => l.length
decreasing_by
  all_goals simp only [List.length_cons]
  all_goals first
    | exact Nat.lt_succ_of_lt (takeToClose_length h)
    | omega

/-- `str.split()`: whitespace-separated words, empties dropped.  `cur` holds
the (reversed) word being read. -/
def pyWordsAux (cur : List Char) : List Char → List (List Char)
  | [] => if cur = [] then [] else [cur.reverse]
  | c :: rest =>
    if isWs c then
      if cur = [] then pyWordsAux [] rest else cur.reverse :: pyWordsAux [] rest
    else pyWordsAux (c :: cur) rest

def pyWords (l : List Char) : List (List Char) := pyWordsAux [] l

/-! ## `total.py` — plain `Product`, Guidecom row parser (claim C2),
orchestrator (claim C4) and grouping (claim C5)

`total.py` defines its own bare `@dataclass Product` (total.py:23-28) with
no `__post_init__` validation at all. -/

structure TProduct where
  name : List Char
  price : List Char
  specifications : List Char
  site : List Char
deriving DecidableEq, Repr

/-- Separator class of `_normalize_brand`'s collapsing substitution:
whitespace, dot, underscore, slash or hyphen. -/
def isSepCh (c : Char) : Bool :=
  isWs c || c = '.' || c = '_' || c = '/' || c = '-'

def collapseSepAux (inRun : Bool) : List Char → List Char
  | [] => []
  | c :: rest =>
    if isSepCh c then
      if inRun then collapseSepAux true rest else ' ' :: collapseSepAux true rest
    else c :: collapseSepAux false rest

def collapseSep (l : List Char) : List Char := collapseSepAux false l

/-- Alias table of `GuidecomParser._normalize_brand` in total.py:754-766. -/
def tgAliases : List (List Char × List Char) :=
  [("wd".toList, "western digital".toList),
   ("웨스턴 디지털".toList, "western digital".toList),
   ("에이수스".toList, "asus".toList),
   ("기가바이트".toList, "gigabyte".toList),
   ("삼성".toList, "삼성전자".toList),
   ("samsung".toList, "삼성전자".toList)]

/-- `GuidecomParser._normalize_brand` (total.py:754-766). -/
def tgNormalizeBrand (text : List Char) : List Char :=
  let t := pyStrip (collapseSep (pyLower text))
  (((tgAliases.find? (fun p => p.1 = t)).map (·.2)).getD t)

def tgSkipWords : List (List Char) :=
  ["신제품".toList, "신상품".toList, "공식인증".toList, "병행수입".toList,
   "벌크".toList, "정품".toList, "할인".toList, "특가".toList]

/-- The index-advancing skip loop of `_extract_manufacturer`
(total.py:733-741): drop leading words that equal or contain a skip word. -/
def dropSkipWords : List (List Char) → List (List Char)
  | [] => []
  | w :: ws =>
    if tgSkipWords.any (fun sk => w = sk || containsSub sk w) then dropSkipWords ws
    else w :: ws

def twoWordBrands : List (List Char) :=
  ["western digital".toList, "tp link".toList, "g skill".toList]

/-- `GuidecomParser._extract_manufacturer` (total.py:717-752). -/
def tgExtractManufacturer (product_name : List Char) : Option (List Char) :=
  if product_name = [] then none
  else
    let text := pyStrip (collapseWs (pySubBrackets [' '] product_name))
    match dropSkipWords (pyWords text) with
    | [] => none
    | m :: rest =>
      match rest with
      | [] => some m
      | w2 :: _ =>
        let pair := m ++ [' '] ++ w2
        if tgNormalizeBrand pair ∈ twoWordBrands then some pair else some m

/-- The inline manufacturer check of `_parse_guidecom_product`
(total.py:852-861); also the body of `_filter_by_maker`
(total.py:768-780). -/
def tgMakerMatch (name : List Char) (maker_codes : List (List Char)) : Bool :=
  match tgExtractManufacturer name with
  | none => false
  | some m =>
    let mn := tgNormalizeBrand m
    maker_codes.any (fun code =>
      let sel := tgNormalizeBrand (code.map (fun c => if c = '_' then ' ' else c))
      mn = sel || containsSub mn sel || containsSub sel mn)

def tgNameSelectors : List String :=
  [".desc .goodsname1", ".desc h4.title a", "h4.title a", ".desc .title a",
   ".title a"]

def tgPriceSelectors : List String :=
  [".prices .price-large span", ".price-large span", ".price-large",
   ".prices .price span", ".price span", ".price"]

def tgSpecSelectors : List String :=
  [".desc .feature", ".feature", ".desc .spec", ".spec", ".desc .description"]

/-- First selector whose `select_one` finds an element; the element is
modelled by its stripped text (`get_text(strip=True)`), which may be
empty even though the element exists. -/
def firstEl (q : String → Option (List Char)) : List String → Option (List Char)
  | [] => none
  | s :: rest => match q s with | some t => some t | none => firstEl q rest

/-- Price loop of `_parse_guidecom_product` (total.py:863-881): `price`
stays `"품절"` unless some selector yields a nonzero digit string. -/
def tgPriceLoop (q : String → Option (List Char)) : List String → List Char
  | [] => "품절".toList
  | s :: rest =>
    match q s with
    | none => tgPriceLoop q rest
    | some txt =>
      let ds := digitsOf txt
      if ds = [] || ds = ['0'] then tgPriceLoop q rest
      else commaFormat (pyInt ds) ++ [wonChar]

/-- Spec loop of `_parse_guidecom_product` (total.py:883-898): `specs` is
*reassigned* whenever a selector finds an element, and the loop breaks only
when the text is non-empty and differs from the name. -/
def tgSpecLoop (q : String → Option (List Char)) (name : List Char) :
    List Char → List String → List Char
  | cur, [] => cur
  | cur, s :: rest =>
    match q s with
    | none => tgSpecLoop q name cur rest
    | some txt =>
      if txt ≠ [] ∧ txt ≠ name then txt else tgSpecLoop q name txt rest

/-- `GuidecomParser._parse_guidecom_product` (total.py:829-908), as a
function of the row's selector results.  Note that the constructed
`total.py` `Product` undergoes no validation. -/
def tgParseProduct (q : String → Option (List Char))
    (maker_codes : List (List Char)) : Option TProduct :=
  let name := ((firstEl q tgNameSelectors).getD [])
  if name = [] then none
  else if maker_codes ≠ [] ∧ ¬ tgMakerMatch name maker_codes then none
  else
    let price := tgPriceLoop q tgPriceSelectors
    let specs := tgSpecLoop q name ("가이드컴 상품".toList) tgSpecSelectors
    some { name := name, price := price,
           specifications :=
             if 100 < specs.length then specs.take 100 ++ "...".toList else specs,
           site := "가이드컴".toList }

/-- A concrete Guidecom goods-row whose `.desc .feature` element exists but
holds only whitespace (so its stripped text is empty), and whose price
elements are absent. -/
def c2Row : String → Option (List Char) := fun s =>
  if s = ".desc .goodsname1" then some ("ProductX".toList)
  else if s = ".desc .feature" then some []
  else none

/-! ### `IntegratedSearcher` (total.py:924-1052) -/

abbrev PyErr := List Char

/-- A `try: ... except: ...` block whose failure branch yields `[]`. -/
def tryCatchList (body : Except PyErr (List α)) : List α :=
  match body with
  | .ok l => l
  | .error _ => []

/-- `IntegratedSearcher.search_all_sites` (total.py:930-961): each site's
`get_unique_products` call is wrapped in its own `try/except`, and the
successful results are concatenated in site order. -/
def searchAllSites (danawaRes compuzoneRes guidecomRes : Except PyErr (List TProduct)) :
    List TProduct :=
  tryCatchList danawaRes ++ tryCatchList compuzoneRes ++ tryCatchList guidecomRes

structure ProductGroupT where
  representative_name : List Char
  products : List TProduct
deriving DecidableEq, Repr

/-- `IntegratedSearcher._clean_product_name` (total.py:993-1002). -/
def cleanProductName (name : List Char) : List Char :=
  let cleaned := pyStrip (collapseWs (pySubBrackets [] name))
  if 50 < cleaned.length then cleaned.take 50 ++ "...".toList else cleaned

/-- `IntegratedSearcher.group_similar_products` (total.py:963-991): greedy
single-pass clustering.  The similarity metric
(`_calculate_similarity`, a `difflib.SequenceMatcher` ratio) enters only
through the threshold comparison `similarity >= similarity_threshold`, so it
is a parameter `sim` here; every theorem about this function is proved for
all `sim`, hence in particular for the `SequenceMatcher` ratio. -/
def groupSimilarProducts (sim : List Char → List Char → ℚ) (threshold : ℚ) :
    List TProduct → List ProductGroupT
  | [] => []
  | base :: rest =>
    let part := rest.partition (fun p => threshold ≤ sim base.name p.name)
    { representative_name := cleanProductName base.name,
      products := base :: part.1 } :: groupSimilarProducts sim threshold part.2
termination_by ps => ps.length
decreasing_by
  simp only [List.partition_eq_filter_filter, List.length_cons]
  exact Nat.lt_succ_of_le (List.length_filter_le _ _)

/-! ## `compuzone.py` — result finalization (claim C8) and the smart
specification de-duplicator (claim C7) -/

/-- Name de-duplication loop of `_finalize_search_results`
(compuzone.py:962-978): skip falsy names, skip already-seen names. -/
def dedupByName (seen : List (List Char)) : List MProduct → List MProduct
  | [] => []
  | p :: ps =>
    if p.name = [] then dedupByName seen ps
    else if p.name ∈ seen then dedupByName seen ps
    else p :: dedupByName (p.name :: seen) ps

/-- `CompuzoneParser._finalize_search_results` (compuzone.py:940-988):
de-duplicate by exact product name, then truncate to `limit`. -/
def finalizeSearchResults (all_products : List MProduct) (limit : Nat) :
    List MProduct :=
  if all_products = [] then [] else (dedupByName [] all_products).take limit

/-- `" / "`-separated split of `_smart_deduplicate_specs`
(compuzone.py:1530, total.py:522): `specs_text.split(" / ")`. -/
def splitSpSlashSp : List Char → List (List Char)
  | ' ' :: '/' :: ' ' :: rest => [] :: splitSpSlashSp rest
  | c :: rest => consHead c (splitSpSlashSp rest)
  | [] => [[]]

/-- The capacity regex of `_is_semantic_duplicate`
(compuzone.py:1561-1568): leftmost digit run, optional whitespace, an
optional `[KMGT]` character and an optional `B` (on the upper-cased
text). -/
def capUnitOpt : List Char → Option (List Char × List Char)
  | [] => none
  | c :: rest =>
    if c.isDigit then
      let ds := (c :: rest).takeWhile Char.isDigit
      let r2 := ((c :: rest).dropWhile Char.isDigit).dropWhile isWs
      some (ds,
        match r2 with
        | 'K' :: 'B' :: _ => ['K', 'B']
        | 'M' :: 'B' :: _ => ['M', 'B']
        | 'G' :: 'B' :: _ => ['G', 'B']
        | 'T' :: 'B' :: _ => ['T', 'B']
        | 'K' :: _ => ['K']
        | 'M' :: _ => ['M']
        | 'G' :: _ => ['G']
        | 'T' :: _ => ['T']
        | 'B' :: _ => ['B']
        | _ => [])
    else capUnitOpt rest

/-- `extract_capacity` inside `_is_semantic_duplicate`
(compuzone.py:1561-1568): run the capacity regex on `text.upper()` and
append `B` to a bare `K`/`M`/`G`/`T` unit. -/
def extractCapacitySmart (text : List Char) : Option (List Char × List Char) :=
  match capUnitOpt (pyUpper text) with
  | some (n, u) =>
    some (n, if u = ['K'] || u = ['M'] || u = ['G'] || u = ['T'] then u ++ ['B'] else u)
  | none => none

/-- One attempt of the series regex `(RTX|GTX|RX|ARC)\s*(\d+)` at a fixed
position (alternatives tried in regex order). -/
def seriesAt (s : List Char) : Option (List Char × List Char) :=
  let tryA := fun (w : List Char) =>
    if w.isPrefixOf s then
      let ds := ((s.drop w.length).dropWhile isWs).takeWhile Char.isDigit
      if ds = [] then none else some (w, ds)
    else none
  ((tryA ("RTX".toList)).orElse fun _ =>
    ((tryA ("GTX".toList)).orElse fun _ =>
      ((tryA ("RX".toList)).orElse fun _ => tryA ("ARC".toList))))

def seriesSearch : List Char → Option (List Char × List Char)
  | [] => none
  | c :: rest =>
    match seriesAt (c :: rest) with
    | some r => some r
    | none => seriesSearch rest

/-- `extract_series` inside `_is_semantic_duplicate`
(compuzone.py:1580-1582), on `text.upper()`. -/
def extractSeriesSmart (text : List Char) : Option (List Char × List Char) :=
  seriesSearch (pyUpper text)

def memKeywords : List (List Char) :=
  ["vram".toList, "memory".toList, "메모리".toList, "gb".toList, "tb".toList]

/-- `CompuzoneParser._is_semantic_duplicate` (compuzone.py:1552-1588,
identical copy at total.py:544-580). -/
def isSemanticDuplicate (text1 text2 : List Char) : Bool :=
  let t1 := pyStrip (pyLower text1)
  let t2 := pyStrip (pyLower text2)
  if t1 = t2 then true
  else
    let capDup :=
      match extractCapacitySmart t1, extractCapacitySmart t2 with
      | some c1, some c2 =>
        c1 = c2 && memKeywords.any (fun kw => containsSub kw t1)
          && memKeywords.any (fun kw => containsSub kw t2)
      | _, _ => false
    if capDup then true
    else
      match extractSeriesSmart t1, extractSeriesSmart t2 with
      | some s1, some s2 => s1 = s2
      | _, _ => false

/-- Inner scan of the `_smart_deduplicate_specs` loop
(compuzone.py:1536-1545): find the first semantically-duplicate entry of
`uniq` and replace it by `p` when `p` is longer; `none` when `p` duplicates
nothing. -/
def replaceFirstDup : List (List Char) → List Char → Option (List (List Char))
  | [], _ => none
  | e :: es, p =>
    if isSemanticDuplicate p e then
      some ((if e.length < p.length then p else e) :: es)
    else
      match replaceFirstDup es p with
      | some es2 => some (e :: es2)
      | none => none

def smartDedupLoop (uniq : List (List Char)) : List (List Char) → List (List Char)
  | [] => uniq
  | p :: ps =>
    match replaceFirstDup uniq p with
    | some uniq2 => smartDedupLoop uniq2 ps
    | none => smartDedupLoop (uniq ++ [p]) ps

/-- `CompuzoneParser._smart_deduplicate_specs` (compuzone.py:1525-1550,
identical copy at total.py:517-542). -/
def smartDeduplicateSpecs (specs_text : List Char) : List Char :=
  if specs_text = [] then specs_text
  else
    let parts := ((splitSpSlashSp specs_text).map pyStrip).filter (fun p => p ≠ [])
    if parts.length ≤ 1 then specs_text
    else joinSep sepSpSlashSp (smartDedupLoop [] parts)

/-! ## `compuzone.py` — capacity filter for option variants (claim C9) -/

/-- Leftmost match of `(\d+)\s*UNIT` for a fixed literal unit (the patterns
of `_extract_capacity_from_keyword`, compuzone.py:1029-1033); returns the
digit group. -/
def numThenLit (unit : List Char) : List Char → Option (List Char)
  | [] => none
  | c :: rest =>
    if c.isDigit then
      let ds := (c :: rest).takeWhile Char.isDigit
      let r2 := ((c :: rest).dropWhile Char.isDigit).dropWhile isWs
      if unit.isPrefixOf r2 then some ds else numThenLit unit rest
    else numThenLit unit rest

/-- Leftmost match of `(\d+)\s*(TB|GB|MB)` (compuzone.py:1271-1272). -/
def numThenUnitAlt : List Char → Option (List Char × List Char)
  | [] => none
  | c :: rest =>
    if c.isDigit then
      let ds := (c :: rest).takeWhile Char.isDigit
      let r2 := ((c :: rest).dropWhile Char.isDigit).dropWhile isWs
      if ("TB".toList).isPrefixOf r2 then some (ds, "TB".toList)
      else if ("GB".toList).isPrefixOf r2 then some (ds, "GB".toList)
      else if ("MB".toList).isPrefixOf r2 then some (ds, "MB".toList)
      else numThenUnitAlt rest
    else numThenUnitAlt rest

def capPatternLoop (ku : List Char) : List (List Char) → Option (List Char)
  | [] => none
  | u :: us =>
    match numThenLit u ku with
    | some n =>
      if containsSub ("TB".toList) ku then some (n ++ "TB".toList)
      else if containsSub ("GB".toList) ku then some (n ++ "GB".toList)
      else if containsSub ("MB".toList) ku then some (n ++ "MB".toList)
      else capPatternLoop ku us
    | none => capPatternLoop ku us

/-- `CompuzoneParser._extract_capacity_from_keyword`
(compuzone.py:1024-1046). -/
def extractCapacityFromKeyword (keyword : List Char) : Option (List Char) :=
  capPatternLoop (pyUpper keyword) ["TB".toList, "GB".toList, "MB".toList]

/-- Python `\w` (word character) for the character classes occurring in
this repository's data: ASCII alphanumerics, underscore, and Hangul
syllables. -/
def isWordChar (c : Char) : Bool :=
  c.isAlphanum || c = '_' || (0xAC00 ≤ c.toNat && c.toNat ≤ 0xD7A3)

/-- `\b`: a boundary lies between two (optional) characters iff exactly one
side is a word character. -/
def bdy (a b : Option Char) : Bool :=
  ((a.map isWordChar).getD false) != ((b.map isWordChar).getD false)

/-- A `\bw\b` match starting exactly at `s`, with `prev` the character just
before `s`. -/
def wbHitAt (w : List Char) (prev : Option Char) (s : List Char) : Bool :=
  w.isPrefixOf s && bdy prev w.head? && bdy w.getLast? (s.drop w.length).head?

def wbSearchAux (w : List Char) (prev : Option Char) : List Char → Bool
  | [] => wbHitAt w prev []
  | c :: rest => wbHitAt w prev (c :: rest) || wbSearchAux w (some c) rest

/-- `re.search(r'\b' + re.escape(f) + r'\b', s)` for a literal `f`
(compuzone.py:1266-1268). -/
def wordBoundSearch (w s : List Char) : Bool := wbSearchAux w none s

/-- `CompuzoneParser._matches_capacity_filter` (compuzone.py:1259-1298). -/
def matchesCapacityFilter (option_name capacity_filter : List Char) : Bool :=
  let ou := pyUpper option_name
  let fu := pyUpper capacity_filter
  if wordBoundSearch fu ou then true
  else
    match numThenUnitAlt fu, numThenUnitAlt ou with
    | some (fn, funit), some (onn, ounit) =>
      if fn = onn && funit = ounit then true
      else
        let fgb := if funit = "TB".toList then pyInt fn * 1024 else pyInt fn
        let ogb := if ounit = "TB".toList then pyInt onn * 1024 else pyInt onn
        fgb = ogb
    | _, _ => false

/-! ## `guidecom.py` — row parser, maker filter, search loop and bucketed
unique search (claims C3 and C8) -/

/-- A DOM element as seen by the parser: its extracted text
(`get_text(" ", strip=True)`), its own `href`, and the `href` of its parent
when the parent is an `<a>` tag. -/
structure GEl where
  text : List Char := []
  href : Option (List Char) := none
  parentHref : Option (List Char) := none

/-- A `goods-row` element: `q` models `row.select_one` (first element
matching the CSS selector, by its `GEl` view), `descNoLinks` the text of
`.desc` after all `<a>` children are decomposed (guidecom.py:531-541). -/
structure GRow where
  q : String → Option GEl
  descNoLinks : Option (List Char) := none

def gNameSelectors : List String :=
  [".desc .goodsname1", ".desc h4.title a", "h4.title a", ".desc .title a",
   ".title a", ".desc a", "a"]

def gLinkSelectors : List String :=
  [".desc h4.title a", "h4.title a", ".desc .title a", ".title a", ".desc a",
   "a"]

def gSpecSelectors : List String :=
  [".desc .feature", ".feature", ".desc .spec", ".spec", ".desc .description",
   ".description", ".desc .summary", ".summary", ".desc .info", ".info",
   ".desc ul", ".desc p", ".goodsinfo"]

def gPriceSelectors : List String :=
  [".prices .price-large span", ".price-large span", ".price-large",
   ".prices .price span", ".price span", ".price", ".cost",
   "[class*=\x27price\x27]"]

def guideBase : List Char := "https://www.guidecom.co.kr".toList

/-- URL absolutization of `_parse_product_item` (guidecom.py:456-461). -/
def mkGuideUrl (h : List Char) : List Char :=
  if h.take 1 = ['/'] then guideBase ++ h
  else if ("http".toList).isPrefixOf h then h
  else guideBase ++ ['/'] ++ h

def firstGEl (q : String → Option GEl) : List String → Option GEl
  | [] => none
  | s :: rest => match q s with | some el => some el | none => firstGEl q rest

/-- The fallback link scan of `_parse_product_item` (guidecom.py:471-483):
first selector yielding an element that has an `href`. -/
def gFindHref (row : GRow) : List String → Option (List Char)
  | [] => none
  | s :: rest =>
    match row.q s with
    | some el =>
      match el.href with
      | some h => some h
      | none => gFindHref row rest
    | none => gFindHref row rest

/-- Link extraction for the found name element (guidecom.py:453-494). -/
def gProductLink (row : GRow) (el : GEl) : List Char :=
  match el.href with
  | some h => mkGuideUrl h
  | none =>
    match el.parentHref with
    | some h => mkGuideUrl h
    | none =>
      match gFindHref row gLinkSelectors with
      | some h => mkGuideUrl h
      | none => []

/-- `GuidecomParser._parse_price` (guidecom.py:422-426). -/
def gParsePrice (txt : List Char) : List Char :=
  let ds := digitsOf txt
  if ds = [] then [] else commaFormat (pyInt ds) ++ [wonChar]

/-- Price loop of `_parse_product_item` (guidecom.py:563-570). -/
def gPriceLoop (row : GRow) : List String → List Char
  | [] => []
  | s :: rest =>
    match row.q s with
    | none => gPriceLoop row rest
    | some el =>
      let pr := gParsePrice el.text
      if pr = [] then gPriceLoop row rest else pr

/-- Spec loop of `_parse_product_item` (guidecom.py:522-529); as in the
total.py copy, `specs` is reassigned on every found element. -/
def gSpecLoop (row : GRow) (name : List Char) :
    List Char → List String → List Char
  | cur, [] => cur
  | cur, s :: rest =>
    match row.q s with
    | none => gSpecLoop row name cur rest
    | some el =>
      if el.text ≠ [] ∧ el.text ≠ name then el.text
      else gSpecLoop row name el.text rest

/-- `GuidecomParser._parse_product_item` (guidecom.py:428-581).  The
constructed `models.Product` runs `__post_init__`; a `ValueError` there is
swallowed by the enclosing `try/except` (→ `none`). -/
def gParseProductItem (row : GRow) : Option MProduct :=
  match firstGEl row.q gNameSelectors with
  | none => none
  | some el =>
    let name := el.text
    if name = [] then none
    else
      let link := gProductLink row el
      let specs0 := gSpecLoop row name [] gSpecSelectors
      let specs :=
        if specs0 = [] then
          match row.descNoLinks with
          | some d => pyStrip d
          | none => []
        else specs0
      let price := gPriceLoop row gPriceSelectors
      match mkProduct name (if price = [] then noPriceInfo else price)
          (if specs = [] then noSpecInfo else specs) link ("가이드컴".toList) with
      | .ok p => some p
      | .error _ => none

/-- Alias table of `GuidecomParser._normalize_brand` (guidecom.py:584-599). -/
def gAliases : List (List Char × List Char) :=
  [("wd".toList, "western digital".toList),
   ("웨스턴 디지털".toList, "western digital".toList),
   ("에이수스".toList, "asus".toList),
   ("기가바이트".toList, "gigabyte".toList),
   ("조텍".toList, "zotac".toList),
   ("엔비디아".toList, "nvidia".toList),
   ("삼성".toList, "삼성전자".toList),
   ("samsung".toList, "삼성전자".toList),
   ("g skill".toList, "gskill".toList),
   ("tp-link".toList, "tp link".toList)]

/-- `GuidecomParser._normalize_brand` (guidecom.py:584-599). -/
def gNormalizeBrand (text : List Char) : List Char :=
  let t := pyStrip (collapseSep (pyLower text))
  (((gAliases.find? (fun p => p.1 = t)).map (·.2)).getD t)

/-- Brand alias groups of `_filter_by_maker` (guidecom.py:692-701). -/
def gBrandAliasTable : List (List Char × List (List Char)) :=
  [("삼성".toList, ["samsung".toList, "삼성전자".toList, "sec".toList]),
   ("lg".toList, ["lg전자".toList, "lge".toList]),
   ("hp".toList, ["hewlett".toList, "packard".toList]),
   ("asus".toList, ["에이수스".toList, "asustek".toList]),
   ("msi".toList, ["micro-star".toList]),
   ("western digital".toList, ["wd".toList, "western".toList, "digital".toList]),
   ("seagate".toList, ["시게이트".toList]),
   ("kingston".toList, ["킹스톤".toList])]

def gPotentialBrands : List (List Char) :=
  ["삼성".toList, "samsung".toList, "lg".toList, "intel".toList,
   "amd".toList, "nvidia".toList, "asus".toList, "msi".toList]

/-- `GuidecomParser._filter_by_maker` (guidecom.py:671-727), with
`keyword` standing for `self._current_search_keyword`. -/
def gFilterByMaker (keyword : List Char) (product_name : List Char)
    (maker_codes : List (List Char)) : Bool :=
  if maker_codes = [] then true
  else
    let pnl := pyLower product_name
    maker_codes.any (fun code =>
      let cl := pyStrip ((pyLower code).map (fun c => if c = '_' then ' ' else c))
      containsSub cl pnl
      || containsSub (gNormalizeBrand cl) pnl
      || gBrandAliasTable.any (fun ba =>
          (ba.1 = cl || cl ∈ ba.2)
          && (ba.1 :: ba.2).any (fun al => containsSub (pyLower al) pnl))
      || (gPotentialBrands.filter (fun b => containsSub b (pyLower keyword))).any
          (fun b => containsSub b pnl))

/-- The result loop of `GuidecomParser.search_products`
(guidecom.py:942-957): parse each row, drop filtered rows, append and stop
once `len(out) >= limit`.  There is no de-duplication here. -/
def gSearchLoop (keyword : List Char) (maker_codes : List (List Char))
    (limit : Nat) (out : List MProduct) : List GRow → List MProduct
  | [] => out
  | r :: rs =>
    match gParseProductItem r with
    | none => gSearchLoop keyword maker_codes limit out rs
    | some p =>
      if !(gFilterByMaker keyword p.name maker_codes) then
        gSearchLoop keyword maker_codes limit out rs
      else
        let out2 := out ++ [p]
        if limit ≤ out2.length then out2
        else gSearchLoop keyword maker_codes limit out2 rs

/-- `GuidecomParser.search_products` (guidecom.py:919-962) as a function of
the fetched rows. -/
def gSearchProducts (rows : List GRow) (keyword : List Char)
    (maker_codes : List (List Char)) (limit : Nat) : List MProduct :=
  gSearchLoop keyword maker_codes limit [] rows

/-- One bucket of `GuidecomParser.get_unique_products`
(guidecom.py:1007-1047): add unseen candidate names until the bucket's
target count is reached. -/
def bucketAddLoop (target : Nat) (acc : List MProduct)
    (seen : List (List Char)) (k : Nat) : List MProduct → List MProduct × List (List Char)
  | [] => (acc, seen)
  | p :: ps =>
    if p.name = [] then bucketAddLoop target acc seen k ps
    else if p.name ∈ seen then bucketAddLoop target acc seen k ps
    else
      let acc2 := acc ++ [p]
      let seen2 := p.name :: seen
      if target ≤ k + 1 then (acc2, seen2)
      else bucketAddLoop target acc2 seen2 (k + 1) ps

/-- `GuidecomParser.get_unique_products` (guidecom.py:964-1073) as a
function of the three buckets' candidate lists (the `search_products`
results for the `price_0`/`reco_goods`/`event_goods` orders). -/
def gGetUniqueProducts (c1 c2 c3 : List MProduct) : List MProduct :=
  let r1 := bucketAddLoop 3 [] [] 0 c1
  let r2 := bucketAddLoop 4 r1.1 r1.2 0 c2
  let r3 := bucketAddLoop 3 r2.1 r2.2 0 c3
  r3.1.take (min r3.1.length 10)

/-- A concrete Guidecom goods-row carrying only a product name. -/
def c8Row : GRow :=
  { q := fun s =>
      if s = ".desc .goodsname1" then some { text := "X".toList } else none }

/-! ## Exception layer of the public parser methods (claims C3, C4)

Every public method body is wrapped in `try/except` blocks; the fallible
network/parse steps are modelled as `Except` values, and each model below
reproduces the method's catch structure. -/

/-- The strategy loop of `CompuzoneParser.search_products`
(compuzone.py:689-722): each strategy's API call / extraction / parse is
one `Except` outcome; a throwing or empty strategy falls through to the
next one. -/
def firstStrategyHit : List (Except PyErr (List MProduct)) → List MProduct
  | [] => []
  | s :: rest =>
    match s with
    | .error _ => firstStrategyHit rest
    | .ok l => if l = [] then firstStrategyHit rest else l

/-- `CompuzoneParser.search_products` (compuzone.py:642-731): the failing
page fetch returns `[]` from the inner `try` (672-679); the strategy loop
catches per-strategy failures; the outer `try` (727-731) catches the rest. -/
def czSearchProductsRun (pageFetch : Except PyErr Unit)
    (strategies : List (Except PyErr (List MProduct))) (limit : Nat) :
    Except PyErr (List MProduct) :=
  match pageFetch with
  | .error _ => .ok []
  | .ok _ => .ok (finalizeSearchResults (firstStrategyHit strategies) limit)

/-- `GuidecomParser.get_search_options` (guidecom.py:832-902): the entire
body sits in one `try`, whose `except` returns `[]` (900-902). -/
def gGetSearchOptionsRun (body : Except PyErr (List BrandOpt)) :
    Except PyErr (List BrandOpt) :=
  match body with
  | .ok l => .ok l
  | .error _ => .ok []

/-- `GuidecomParser.search_products` (guidecom.py:919-962): one enclosing
`try`, whose `except` returns `[]` (958-962). -/
def gSearchProductsRun (body : Except PyErr (List MProduct)) :
    Except PyErr (List MProduct) :=
  match body with
  | .ok l => .ok l
  | .error _ => .ok []

/-- `GuidecomParser.get_unique_products` (guidecom.py:964-1073): each
bucket's `search_products` call sits in a per-bucket `try/except: continue`
(1045-1047), the whole body in an outer `try` (1069-1073). -/
def gGetUniqueProductsRun (c1 c2 c3 : Except PyErr (List MProduct)) :
    Except PyErr (List MProduct) :=
  .ok (gGetUniqueProducts (tryCatchList c1) (tryCatchList c2) (tryCatchList c3))

/-! ## Theorems -/

/-- C1: for every product, the price-rank function `extract_price` strips
all non-digit characters from the price string; if the remainder is empty
(a status token such as "품절" or "가격 문의") the rank is +infinity (`⊤`),
otherwise the rank is the integer formed by the remaining digits;
consequently the rank is monotonic with respect to numeric price for all
parseable prices, and every status-token price ranks strictly greater than
every finite rank. -/
theorem C1_price_rank :
    (∀ p : List Char, digitsOf p = [] → extract_price p = ⊤) ∧
    (∀ p : List Char, digitsOf p ≠ [] →
      extract_price p = ((pyInt (digitsOf p) : Nat) : WithTop Nat)) ∧
    (∀ p q : List Char, digitsOf p ≠ [] → digitsOf q ≠ [] →
      pyInt (digitsOf p) ≤ pyInt (digitsOf q) →
      extract_price p ≤ extract_price q) ∧
    (∀ s p : List Char, digitsOf s = [] → digitsOf p ≠ [] →
      extract_price p < extract_price s) := by
  refine ⟨fun p hp => ?_, fun p hp => ?_,
    fun p q hp hq hle => ?_, fun s p hs hp => ?_⟩
  · simp [extract_price, hp]
  · simp [extract_price, hp]
  · simp only [extract_price, if_neg hp, if_neg hq]
    exact_mod_cast hle
  · simp only [extract_price, if_pos hs, if_neg hp]
    exact WithTop.coe_lt_top _

/-- Witness for C1 at concrete prices: "1원" ranks below "89,900원", and the
status token "품절" ranks strictly above the finite rank of "89,900원". -/
theorem C1_price_rank_witness :
    extract_price ("1원".toList) ≤ extract_price ("89,900원".toList) ∧
    extract_price ("89,900원".toList) < extract_price ("품절".toList) := by
  constructor
  · exact C1_price_rank.2.2.1 _ _ (by decide) (by decide) (by decide)
  · exact C1_price_rank.2.2.2 _ _ (by decide) (by decide)

/-- C3: every public parser method returns a (possibly empty) list for
every input and never propagates an exception to the caller: whatever the
outcomes of the fallible network/parse internals, the models of
`CompuzoneParser.search_products`, `GuidecomParser.get_search_options`,
`GuidecomParser.search_products` and `GuidecomParser.get_unique_products`
evaluate to `Except.ok` of some list. -/
theorem C3_no_exception_escapes :
    (∀ (pf : Except PyErr Unit) (strats : List (Except PyErr (List MProduct)))
        (limit : Nat), ∃ l, czSearchProductsRun pf strats limit = .ok l) ∧
    (∀ body : Except PyErr (List BrandOpt),
      ∃ l, gGetSearchOptionsRun body = .ok l) ∧
    (∀ body : Except PyErr (List MProduct),
      ∃ l, gSearchProductsRun body = .ok l) ∧
    (∀ c1 c2 c3 : Except PyErr (List MProduct),
      ∃ l, gGetUniqueProductsRun c1 c2 c3 = .ok l) := by
  refine ⟨fun pf strats limit => ?_, fun body => ?_, fun body => ?_,
    fun c1 c2 c3 => ⟨_, rfl⟩⟩
  · cases pf with
    | error e => exact ⟨[], rfl⟩
    | ok u => exact ⟨_, rfl⟩
  · cases body with
    | error e => exact ⟨[], rfl⟩
    | ok l => exact ⟨l, rfl⟩
  · cases body with
    | error e => exact ⟨[], rfl⟩
    | ok l => exact ⟨l, rfl⟩

/-- C4: if one site's `get_unique_products` raises, that site contributes
zero products and `search_all_sites` still returns exactly the
concatenation of the other sites' results, whichever site fails. -/
theorem C4_failure_isolation :
    (∀ (e : PyErr) (l2 l3 : List TProduct),
      searchAllSites (.error e) (.ok l2) (.ok l3) = l2 ++ l3) ∧
    (∀ (e : PyErr) (l1 l3 : List TProduct),
      searchAllSites (.ok l1) (.error e) (.ok l3) = l1 ++ l3) ∧
    (∀ (e : PyErr) (l1 l2 : List TProduct),
      searchAllSites (.ok l1) (.ok l2) (.error e) = l1 ++ l2) := by
  refine ⟨fun e l2 l3 => ?_, fun e l1 l3 => ?_, fun e l1 l2 => ?_⟩ <;>
    simp [searchAllSites, tryCatchList]

theorem grouping_flatten_perm (sim : List Char → List Char → ℚ) (th : ℚ) :
    ∀ (n : Nat) (ps : List TProduct), ps.length ≤ n →
      List.Perm (((groupSimilarProducts sim th ps).map ProductGroupT.products).flatten) ps := by
  intro n
  induction n with
  | zero =>
    intro ps hps
    have : ps = [] := List.length_eq_zero.mp (Nat.le_zero.mp hps)
    subst this
    simp [groupSimilarProducts]
  | succ n ih =>
    intro ps hps
    match ps with
    | [] => simp [groupSimilarProducts]
    | base :: rest =>
      rw [groupSimilarProducts]
      simp only [List.partition_eq_filter_filter, List.map_cons,
        List.flatten_cons, List.cons_append]
      refine List.Perm.cons base ?_
      have hlen : (rest.filter
          (fun p => !(decide (th ≤ sim base.name p.name)))).length ≤ n := by
        have h1 := List.length_filter_le
          (fun p => !(decide (th ≤ sim base.name p.name))) rest
        have h2 : rest.length ≤ n := by
          simpa using Nat.le_of_succ_le_succ hps
        omega
      have hrec := ih _ hlen
      exact List.Perm.trans (List.Perm.append_left _ hrec)
        (List.filter_append_perm _ rest)

theorem collapseWsAux_false_ne_nil {l : List Char} (hl : l ≠ []) :
    collapseWsAux false l ≠ [] := by
  match l with
  | [] => exact absurd rfl hl
  | c :: rest =>
    unfold collapseWsAux
    by_cases h : isWs c = true <;> simp [h]

theorem cleanString_ne_nil {l : List Char} (hl : pyStrip l ≠ []) :
    cleanString l ≠ [] :=
  collapseWsAux_false_ne_nil hl

theorem standardizePrice_ne_nil {p : List Char} (hp : p ≠ []) :
    standardizePrice p ≠ [] := by
  unfold standardizePrice
  split_ifs <;> first
    | exact hp
    | decide
    | simp

theorem dedupSpecs_subset {ps : List (List Char)} :
    ∀ {seen : List (List Char)} {x : List Char}, x ∈ dedupSpecs seen ps → x ∈ ps := by
  induction ps with
  | nil => intro seen x h; exact absurd h (by simp [dedupSpecs])
  | cons p ps ih =>
    intro seen x h
    unfold dedupSpecs at h
    split_ifs at h with hc
    · exact List.mem_cons_of_mem _ (ih h)
    · rcases List.mem_cons.mp h with h1 | h2
      · exact h1 ▸ List.mem_cons_self _ _
      · exact List.mem_cons_of_mem _ (ih h2)

theorem joinSep_ne_nil {sep : List Char} {us : List (List Char)}
    (hne : us ≠ []) (hel : ∀ u ∈ us, u ≠ []) : joinSep sep us ≠ [] := by
  match us with
  | [] => exact absurd rfl hne
  | [u] => exact hel u (by simp)
  | u :: v :: rest =>
    have hu : u ≠ [] := hel u (by simp)
    simp [joinSep, hu]

theorem cleanSpecifications_ne_nil (specs : List Char) :
    cleanSpecifications specs ≠ [] := by
  unfold cleanSpecifications
  split_ifs with h1 h2 h3
  · decide
  · decide
  · decide
  · refine joinSep_ne_nil h3 ?_
    intro u hu
    have hmem := dedupSpecs_subset hu
    have := List.mem_filter.mp ((by exact hmem) :
      u ∈ ((splitSlash specs).map pyStrip).filter (fun p => p ≠ []))
    simpa using this.2

/-- C2 counterexample: `total.py`'s Guidecom parser successfully constructs
a `Product` whose `specifications` field is the empty string, on a row
whose `.desc .feature` element exists with blank text — `total.py`'s
`Product` dataclass performs no validation and substitutes no sentinel. -/
theorem C2_counterexample :
    (tgParseProduct c2Row []).map TProduct.specifications = some [] := by decide

/-- C2 (amended): for every *`models.Product`* successfully constructed
(by the compuzone.py/guidecom.py parsers, which all build `models.Product`),
the `price` and `specifications` fields are non-empty: sentinels are
substituted for absent values.  (`total.py`'s own bare `Product` dataclass
has no such invariant — see the counterexample.) -/
theorem C2_models_product_nonempty
    (name price specifications product_link site : List Char) (p : MProduct)
    (h : mkProduct name price specifications product_link site = .ok p) :
    p.price ≠ [] ∧ p.specifications ≠ [] := by
  unfold mkProduct at h
  split_ifs at h with h1 h2
  have hp : p = {
      name := cleanString name
      price := standardizePrice (cleanString price)
      specifications := cleanSpecifications (cleanString specifications)
      product_link := cleanString product_link
      site := cleanString site } := by
    cases h; rfl
  subst hp
  exact ⟨standardizePrice_ne_nil (cleanString_ne_nil h2),
    cleanSpecifications_ne_nil _⟩

/-- Witness for C2 (amended) at a concrete construction. -/
theorem C2_models_product_nonempty_witness :
    mkProduct ("990 EVO".toList) ("89,900원".toList) [] [] ("컴퓨존".toList)
      = .ok ⟨"990 EVO".toList, "89,900원".toList, noSpecInfo, [], "컴퓨존".toList⟩ ∧
    (⟨"990 EVO".toList, "89,900원".toList, noSpecInfo, [],
      "컴퓨존".toList⟩ : MProduct).price ≠ [] ∧
    (⟨"990 EVO".toList, "89,900원".toList, noSpecInfo, [],
      "컴퓨존".toList⟩ : MProduct).specifications ≠ [] := by
  refine ⟨by rfl, ?_⟩
  exact C2_models_product_nonempty ("990 EVO".toList) ("89,900원".toList) [] []
    ("컴퓨존".toList) _ (by rfl)

theorem findMfr_cons (e : MfrEntry) (es : List MfrEntry) (key : List Char) :
    findMfr (e :: es) key = if e.key = key then some e else findMfr es key := rfl

theorem codesOf_cons (e : MfrEntry) (es : List MfrEntry) (key : List Char) :
    codesOf (e :: es) key = if e.key = key then e.codes else codesOf es key := by
  unfold codesOf
  rw [findMfr_cons]
  by_cases h : e.key = key <;> simp [h]

theorem codesOf_addMfr (m : List MfrEntry) (b : BrandOpt) (key : List Char)
    (c : List Char) :
    c ∈ codesOf (addMfr m b) key ↔
      c ∈ codesOf m key ∨ (mfrKey b.name = key ∧ c = b.code) := by
  induction m with
  | nil =>
    by_cases hk : mfrKey b.name = key <;>
      simp [addMfr, codesOf, findMfr, hk]
  | cons e es ih =>
    by_cases he : e.key = mfrKey b.name
    · by_cases hek : e.key = key
      · have hbk : mfrKey b.name = key := by rw [← he]; exact hek
        by_cases hc : b.code ∈ e.codes
        · simp only [addMfr, if_pos he, if_pos hc, codesOf_cons, if_pos hek, hbk,
            true_and]
          exact ⟨Or.inl, fun h => h.elim id (fun hcb => hcb ▸ hc)⟩
        · simp only [addMfr, if_pos he, if_neg hc, codesOf_cons, if_pos hek,
            hbk, true_and]
          simp [codesOf_cons, List.mem_append]
      · have hbk : ¬(mfrKey b.name = key) := by rw [← he]; exact hek
        by_cases hc : b.code ∈ e.codes
        · simp [addMfr, if_pos he, if_pos hc, codesOf_cons, if_neg hek, hbk, hek]
        · simp [addMfr, if_pos he, if_neg hc, codesOf_cons, hek, hbk]
    · simp only [addMfr, if_neg he, codesOf_cons]
      by_cases hek : e.key = key
      · have hbk : ¬(mfrKey b.name = key) := fun h => he (hek.trans h.symm)
        simp [hek, hbk]
      · simp [hek, ih]

theorem codesOf_foldl (L : List BrandOpt) :
    ∀ (m : List MfrEntry) (key c : List Char),
      c ∈ codesOf (L.foldl addMfr m) key ↔
        c ∈ codesOf m key ∨ ∃ b ∈ L, mfrKey b.name = key ∧ c = b.code := by
  induction L with
  | nil => intro m key c; simp
  | cons b L ih =>
    intro m key c
    rw [List.foldl_cons, ih, codesOf_addMfr]
    constructor
    · rintro ((h | h) | ⟨b', hb', hk, hc⟩)
      · exact Or.inl h
      · exact Or.inr ⟨b, by simp, h.1, h.2⟩
      · exact Or.inr ⟨b', by simp [hb'], hk, hc⟩
    · rintro (h | ⟨b', hb', hk, hc⟩)
      · exact Or.inl (Or.inl h)
      · rcases List.mem_cons.mp hb' with rfl | hmem
        · exact Or.inl (Or.inr ⟨hk, hc⟩)
        · exact Or.inr ⟨b', hmem, hk, hc⟩

/-- C6 (amended): the *app.py* manufacturer merge (the codes-accumulating
dictionary of app.py:202-216) is commutative in site order: for every pair
of per-site candidate lists, merging SiteA's then SiteB's candidates yields,
per normalized name, the same *set* of accumulated codes as merging in the
opposite order.  (The `total.py` `get_all_brands` merge is not — see the
counterexample.) -/
theorem C6_app_merge_commutative (A B : List BrandOpt) (key : List Char) :
    (codesOf (mergeMfrs (A ++ B)) key).toFinset
      = (codesOf (mergeMfrs (B ++ A)) key).toFinset := by
  ext c
  simp only [List.mem_toFinset]
  unfold mergeMfrs
  rw [codesOf_foldl, codesOf_foldl]
  simp only [List.mem_append]
  constructor
  · rintro (h | ⟨b, hb | hb, hk, hc⟩)
    · exact Or.inl h
    · exact Or.inr ⟨b, Or.inr hb, hk, hc⟩
    · exact Or.inr ⟨b, Or.inl hb, hk, hc⟩
  · rintro (h | ⟨b, hb | hb, hk, hc⟩)
    · exact Or.inl h
    · exact Or.inr ⟨b, Or.inr hb, hk, hc⟩
    · exact Or.inr ⟨b, Or.inl hb, hk, hc⟩

/-- C6 counterexample: the `total.py` `get_all_brands` merge is
last-write-wins per raw name, so with the concrete one-entry site lists
`c6SiteA`/`c6SiteB` (same name "ASUS", codes "9" vs "asus") the two site
orders produce different name-to-codes maps. -/
theorem C6_counterexample :
    getAllBrandsMerge [c6SiteA, c6SiteB] = [("ASUS".toList, "asus".toList)] ∧
    getAllBrandsMerge [c6SiteB, c6SiteA] = [("ASUS".toList, "9".toList)] ∧
    getAllBrandsMerge [c6SiteA, c6SiteB] ≠ getAllBrandsMerge [c6SiteB, c6SiteA] := by
  decide

theorem dedupByName_inv (l : List MProduct) :
    ∀ seen : List (List Char),
      ((dedupByName seen l).map (fun p => p.name)).Nodup ∧
      ∀ x ∈ (dedupByName seen l).map (fun p => p.name), x ∉ seen := by
  induction l with
  | nil => intro seen; simp [dedupByName]
  | cons p ps ih =>
    intro seen
    unfold dedupByName
    by_cases h1 : p.name = []
    · simpa [h1] using ih seen
    · by_cases h2 : p.name ∈ seen
      · simpa [h1, h2] using ih seen
      · simp only [if_neg h1, if_neg h2, List.map_cons, List.nodup_cons]
        obtain ⟨hnd, hnotin⟩ := ih (p.name :: seen)
        refine ⟨⟨fun hmem => (hnotin _ hmem) (List.mem_cons_self _ _), hnd⟩, ?_⟩
        intro x hx
        rcases List.mem_cons.mp hx with rfl | hx2
        · exact h2
        · exact fun hxseen => (hnotin x hx2) (List.mem_cons_of_mem _ hxseen)

theorem gSearchLoop_length_le (keyword : List Char) (codes : List (List Char))
    (limit : Nat) (rows : List GRow) :
    ∀ out : List MProduct, out.length < limit →
      (gSearchLoop keyword codes limit out rows).length ≤ limit := by
  induction rows with
  | nil => intro out h; exact Nat.le_of_lt h
  | cons r rs ih =>
    intro out h
    unfold gSearchLoop
    cases gParseProductItem r with
    | none => exact ih out h
    | some p =>
      by_cases hf : gFilterByMaker keyword p.name codes
      · simp only [hf, Bool.not_true, Bool.false_eq_true, if_false]
        have hlen : (out ++ [p]).length = out.length + 1 := by simp
        by_cases hl : limit ≤ (out ++ [p]).length
        · rw [if_pos hl]
          omega
        · rw [if_neg hl]
          refine ih (out ++ [p]) ?_
          omega
      · simp only [Bool.not_eq_true] at hf
        simp only [hf, Bool.not_false, if_true]
        exact ih out h

theorem bucketAddLoop_inv (target : Nat) (cands : List MProduct) :
    ∀ (acc : List MProduct) (seen : List (List Char)) (k : Nat),
      (acc.map (fun p => p.name)).Nodup →
      (∀ x ∈ acc.map (fun p => p.name), x ∈ seen) →
      ((bucketAddLoop target acc seen k cands).1.map (fun p => p.name)).Nodup ∧
      ∀ x ∈ (bucketAddLoop target acc seen k cands).1.map (fun p => p.name),
        x ∈ (bucketAddLoop target acc seen k cands).2 := by
  induction cands with
  | nil => intro acc seen k hnd hsub; exact ⟨hnd, hsub⟩
  | cons p ps ih =>
    intro acc seen k hnd hsub
    unfold bucketAddLoop
    by_cases h1 : p.name = []
    · rw [if_pos h1]; exact ih acc seen k hnd hsub
    · rw [if_neg h1]
      by_cases h2 : p.name ∈ seen
      · rw [if_pos h2]; exact ih acc seen k hnd hsub
      · rw [if_neg h2]
        have hnotin : p.name ∉ acc.map (fun p => p.name) :=
          fun hmem => h2 (hsub _ hmem)
        have hnd2 : ((acc ++ [p]).map (fun p => p.name)).Nodup := by
          simp only [List.map_append, List.map_cons, List.map_nil]
          simp [List.nodup_append, hnd, hnotin]
        have hsub2 : ∀ x ∈ (acc ++ [p]).map (fun p => p.name),
            x ∈ p.name :: seen := by
          intro x hx
          simp only [List.map_append, List.map_cons, List.map_nil,
            List.mem_append, List.mem_singleton] at hx
          rcases hx with hx | rfl
          · exact List.mem_cons_of_mem _ (hsub _ hx)
          · exact List.mem_cons_self _ _
        by_cases ht : target ≤ k + 1
        · rw [if_pos ht]; exact ⟨hnd2, hsub2⟩
        · rw [if_neg ht]; exact ih (acc ++ [p]) (p.name :: seen) (k + 1) hnd2 hsub2

/-- C8 (amended): `CompuzoneParser`'s result finalization de-duplicates by
exact product name and truncates to `limit`; `GuidecomParser`'s
`get_unique_products` de-duplicates by exact product name across its three
buckets and returns at most 10 products; but `GuidecomParser`'s
`search_products` itself performs **no** name de-duplication and its length
is bounded by `limit` only for `limit ≥ 1` (with `limit = 0` it can return
one product — see the counterexample). -/
theorem C8_dedup_and_limit :
    (∀ (all : List MProduct) (limit : Nat),
      ((finalizeSearchResults all limit).map (fun p => p.name)).Nodup ∧
      (finalizeSearchResults all limit).length ≤ limit) ∧
    (∀ (rows : List GRow) (keyword : List Char) (codes : List (List Char))
        (limit : Nat), 1 ≤ limit →
      (gSearchProducts rows keyword codes limit).length ≤ limit) ∧
    (∀ c1 c2 c3 : List MProduct,
      ((gGetUniqueProducts c1 c2 c3).map (fun p => p.name)).Nodup ∧
      (gGetUniqueProducts c1 c2 c3).length ≤ 10) := by
  refine ⟨fun all limit => ?_, fun rows keyword codes limit hl => ?_,
    fun c1 c2 c3 => ?_⟩
  · unfold finalizeSearchResults
    split_ifs with h
    · simp
    · constructor
      · have hnd := (dedupByName_inv all []).1
        rw [List.map_take]
        exact hnd.sublist (List.take_sublist _ _)
      · exact List.length_take_le _ _
  · exact gSearchLoop_length_le keyword codes limit rows [] hl
  · unfold gGetUniqueProducts
    have h1 := bucketAddLoop_inv 3 c1 [] [] 0 (by simp) (by simp)
    have h2 := bucketAddLoop_inv 4 c2 _ _ 0 h1.1 h1.2
    have h3 := bucketAddLoop_inv 3 c3 _ _ 0 h2.1 h2.2
    constructor
    · rw [List.map_take]
      exact h3.1.sublist (List.take_sublist _ _)
    · calc ((bucketAddLoop 3 (bucketAddLoop 4 (bucketAddLoop 3 [] [] 0 c1).1
              (bucketAddLoop 3 [] [] 0 c1).2 0 c2).1
              (bucketAddLoop 4 (bucketAddLoop 3 [] [] 0 c1).1
                (bucketAddLoop 3 [] [] 0 c1).2 0 c2).2 0 c3).1.take
              (min (bucketAddLoop 3 (bucketAddLoop 4 (bucketAddLoop 3 [] [] 0 c1).1
                (bucketAddLoop 3 [] [] 0 c1).2 0 c2).1
                (bucketAddLoop 4 (bucketAddLoop 3 [] [] 0 c1).1
                  (bucketAddLoop 3 [] [] 0 c1).2 0 c2).2 0 c3).1.length 10)).length
          ≤ min (bucketAddLoop 3 (bucketAddLoop 4 (bucketAddLoop 3 [] [] 0 c1).1
                (bucketAddLoop 3 [] [] 0 c1).2 0 c2).1
                (bucketAddLoop 4 (bucketAddLoop 3 [] [] 0 c1).1
                  (bucketAddLoop 3 [] [] 0 c1).2 0 c2).2 0 c3).1.length 10 :=
            List.length_take_le _ _
        _ ≤ 10 := Nat.min_le_right _ _

/-- C8 counterexample: on two identical rows, Guidecom's `search_products`
returns the same product twice (no name de-duplication), and with
`limit = 0` it still returns one product. -/
theorem C8_counterexample :
    ¬ ((gSearchProducts [c8Row, c8Row] ("ssd".toList) [] 5).map
        (fun p => p.name)).Nodup ∧
    (gSearchProducts [c8Row] ("ssd".toList) [] 0).length = 1 := by
  constructor
  · decide
  · decide

/-- Witness for C8 (amended) at a concrete search. -/
theorem C8_dedup_and_limit_witness :
    1 ≤ 5 ∧ (gSearchProducts [c8Row] ("ssd".toList) [] 5).length ≤ 5 :=
  ⟨by decide, C8_dedup_and_limit.2.1 [c8Row] ("ssd".toList) [] 5 (by decide)⟩

theorem dropWhile_append_all {p : Char → Bool} {w x : List Char}
    (hw : ∀ c ∈ w, p c = true) :
    (w ++ x).dropWhile p = x.dropWhile p := by
  induction w with
  | nil => rfl
  | cons c w ih =>
    simp only [List.cons_append, List.dropWhile_cons,
      hw c (List.mem_cons_self _ _), if_true]
    exact ih (fun d hd => hw d (List.mem_cons_of_mem _ hd))

theorem rdropWhile_append_all {p : Char → Bool} {x t : List Char}
    (ht : ∀ c ∈ t, p c = true) :
    (x ++ t).rdropWhile p = x.rdropWhile p := by
  induction t using List.reverseRecOn with
  | nil => simp
  | append_singleton t c ih =>
    rw [← List.append_assoc,
      List.rdropWhile_concat_pos _ _ c (ht c (by simp))]
    exact ih (fun d hd => ht d (by simp [hd]))

theorem head_not_of_dropWhile_self {p : Char → Bool} {c : Char} {u : List Char}
    (h : (c :: u).dropWhile p = c :: u) : p c = false := by
  by_cases hp : p c = true
  · rw [List.dropWhile_cons, if_pos hp] at h
    have hlen := congrArg List.length h
    have := (List.dropWhile_suffix (l := u) p).length_le
    simp only [List.length_cons] at hlen
    omega
  · simpa using hp

theorem dropWhile_append_self {p : Char → Bool} {u t : List Char}
    (hu : u.dropWhile p = u) (hne : u ≠ []) :
    (u ++ t).dropWhile p = u ++ t := by
  match u with
  | [] => exact absurd rfl hne
  | c :: u' =>
    have hc := head_not_of_dropWhile_self hu
    simp [List.dropWhile_cons, hc]

theorem stripped_facts {l : List Char} (h : pyStrip l ≠ []) :
    (pyStrip l).dropWhile isWs = pyStrip l ∧
    (pyStrip l).rdropWhile isWs = pyStrip l := by
  constructor
  · have hpre : pyStrip l <+: l.dropWhile isWs := List.rdropWhile_prefix _ _
    obtain ⟨t, ht⟩ := hpre
    match hu : pyStrip l with
    | [] => exact absurd hu h
    | c :: u' =>
      rw [hu] at ht
      have hd : l.dropWhile isWs = c :: (u' ++ t) := by rw [← ht]; simp
      have hdne : l.dropWhile isWs ≠ [] := by rw [hd]; simp
      have hhead : isWs ((l.dropWhile isWs).head hdne) = false :=
        List.head_dropWhile_not isWs l hdne
      have hc : isWs c = false := by
        have heq : (l.dropWhile isWs).head hdne = c := by
          simp [hd]
        rw [heq] at hhead
        exact hhead
      simp [List.dropWhile_cons, hc]
  · apply List.rdropWhile_eq_self_iff.mpr
    intro hl
    have := List.rdropWhile_last_not isWs (l.dropWhile isWs) (by
      show pyStrip l ≠ []
      exact h)
    exact this

theorem pyStrip_idem (l : List Char) : pyStrip (pyStrip l) = pyStrip l := by
  by_cases h : pyStrip l = []
  · rw [h]; rfl
  · obtain ⟨h1, h2⟩ := stripped_facts h
    show ((pyStrip l).dropWhile isWs).rdropWhile isWs = pyStrip l
    rw [h1, h2]

theorem pyStrip_pad {w u t : List Char} (hw : ∀ c ∈ w, isWs c = true)
    (ht : ∀ c ∈ t, isWs c = true) (hu : pyStrip u = u) (hne : u ≠ []) :
    pyStrip (w ++ u ++ t) = u := by
  have hfacts := stripped_facts (l := u) (hu.symm ▸ hne)
  rw [hu] at hfacts
  obtain ⟨h1, h2⟩ := hfacts
  show ((w ++ u ++ t).dropWhile isWs).rdropWhile isWs = u
  rw [List.append_assoc, dropWhile_append_all hw,
    dropWhile_append_self h1 hne, rdropWhile_append_all ht, h2]

theorem pyStrip_sublist (l : List Char) : List.Sublist (pyStrip l) l :=
  ((List.rdropWhile_prefix isWs (l.dropWhile isWs)).sublist).trans
    ((List.dropWhile_suffix isWs).sublist)

theorem splitSlash_ne_nil (s : List Char) : splitSlash s ≠ [] := by
  match s with
  | [] => simp [splitSlash]
  | c :: rest =>
    unfold splitSlash
    by_cases hc : c = '/'
    · simp [hc]
    · rw [if_neg hc]
      cases splitSlash rest <;> simp [consHead]

theorem splitSlash_no_slash {s : List Char} (h : ∀ c ∈ s, ¬ c = '/') :
    splitSlash s = [s] := by
  induction s with
  | nil => rfl
  | cons c rest ih =>
    unfold splitSlash
    rw [if_neg (h c (List.mem_cons_self _ _))]
    rw [ih (fun d hd => h d (List.mem_cons_of_mem _ hd))]
    rfl

theorem mem_splitSlash_no_slash {s : List Char} :
    ∀ p ∈ splitSlash s, ∀ c ∈ p, ¬ c = '/' := by
  induction s with
  | nil =>
    intro p hp
    simp only [splitSlash, List.mem_singleton] at hp
    subst hp
    simp
  | cons c rest ih =>
    intro p hp
    unfold splitSlash at hp
    by_cases hc : c = '/'
    · rw [if_pos hc] at hp
      rcases List.mem_cons.mp hp with rfl | hp2
      · simp
      · exact ih p hp2
    · rw [if_neg hc] at hp
      match hq : splitSlash rest with
      | [] => exact absurd hq (splitSlash_ne_nil rest)
      | q :: qs =>
        rw [hq] at hp
        simp only [consHead] at hp
        rcases List.mem_cons.mp hp with rfl | hp2
        · intro d hd
          rcases List.mem_cons.mp hd with rfl | hd2
          · exact hc
          · exact ih q (by rw [hq]; exact List.mem_cons_self _ _) d hd2
        · exact ih p (by rw [hq]; exact List.mem_cons_of_mem _ hp2)

theorem splitSlash_append {a b : List Char} (ha : ∀ c ∈ a, ¬ c = '/') :
    ∀ p ps, splitSlash b = p :: ps → splitSlash (a ++ b) = (a ++ p) :: ps := by
  induction a with
  | nil =>
    intro p ps h
    rw [List.nil_append, List.nil_append]
    exact h
  | cons c a' ih =>
    intro p ps h
    simp only [List.cons_append]
    unfold splitSlash
    rw [if_neg (ha c (List.mem_cons_self _ _))]
    rw [ih (fun d hd => ha d (List.mem_cons_of_mem _ hd)) p ps h]
    rfl

theorem specParts_split {a b : List Char} (ha : ∀ c ∈ a, ¬ c = '/') :
    specParts (a ++ '/' :: b) =
      (if pyStrip a = [] then specParts b else pyStrip a :: specParts b) := by
  unfold specParts
  have hb : splitSlash ('/' :: b) = [] :: splitSlash b := by
    simp [splitSlash]
  match hq : splitSlash b with
  | [] => exact absurd hq (splitSlash_ne_nil b)
  | q :: qs =>
    rw [hq] at hb
    rw [splitSlash_append ha _ _ hb]
    simp only [List.append_nil, List.map_cons, List.filter_cons, hq]
    by_cases hpa : pyStrip a = []
    · simp [hpa]
    · simp [hpa]

theorem isWs_ne_slash {c : Char} (h : isWs c = true) : ¬ c = '/' := by
  intro heq
  subst heq
  exact absurd h (by decide)

theorem dedupSpecs_eq_self {ps : List (List Char)} :
    ∀ seen : List (List Char),
      ps.Pairwise (fun a b => pyStrip (pyLower a) ≠ pyStrip (pyLower b)) →
      (∀ p ∈ ps, pyStrip (pyLower p) ≠ [] ∧ pyStrip (pyLower p) ∉ seen) →
      dedupSpecs seen ps = ps := by
  induction ps with
  | nil => intro seen _ _; rfl
  | cons p ps ih =>
    intro seen hpw hall
    unfold dedupSpecs
    obtain ⟨hne, hnotin⟩ := hall p (List.mem_cons_self _ _)
    rw [if_neg (by push_neg; exact ⟨hnotin, hne⟩)]
    congr 1
    apply ih _ (List.Pairwise.of_cons hpw)
    intro q hq
    refine ⟨(hall q (List.mem_cons_of_mem _ hq)).1, ?_⟩
    intro hmem
    rcases List.mem_cons.mp hmem with heq | hmem2
    · exact (List.rel_of_pairwise_cons hpw hq) heq.symm
    · exact (hall q (List.mem_cons_of_mem _ hq)).2 hmem2

theorem dedupSpecs_inv (ps : List (List Char)) :
    ∀ seen : List (List Char),
      (dedupSpecs seen ps).Pairwise
        (fun a b => pyStrip (pyLower a) ≠ pyStrip (pyLower b)) ∧
      ∀ p ∈ dedupSpecs seen ps,
        pyStrip (pyLower p) ∉ seen ∧ pyStrip (pyLower p) ≠ [] := by
  induction ps with
  | nil => intro seen; simp [dedupSpecs]
  | cons p ps ih =>
    intro seen
    unfold dedupSpecs
    by_cases hc : pyStrip (pyLower p) ∈ seen ∨ pyStrip (pyLower p) = []
    · rw [if_pos hc]; exact ih seen
    · rw [if_neg hc]
      push_neg at hc
      obtain ⟨hnotin, hne⟩ := hc
      obtain ⟨hpw, hmem⟩ := ih (pyStrip (pyLower p) :: seen)
      constructor
      · refine List.pairwise_cons.mpr ⟨?_, hpw⟩
        intro q hq heq
        exact (hmem q hq).1 (by rw [← heq]; exact List.mem_cons_self _ _)
      · intro q hq
        rcases List.mem_cons.mp hq with rfl | hq2
        · exact ⟨hnotin, hne⟩
        · have h2 := hmem q hq2
          exact ⟨fun hs => h2.1 (List.mem_cons_of_mem _ hs), h2.2⟩

theorem specParts_joinSep :
    ∀ us : List (List Char), us ≠ [] →
      (∀ u ∈ us, pyStrip u = u ∧ u ≠ [] ∧ ∀ c ∈ u, ¬ c = '/') →
      ∀ w : List Char, (∀ c ∈ w, isWs c = true) →
      specParts (w ++ joinSep sepSpSlashSp us) = us := by
  intro us
  induction us with
  | nil => intro h; exact absurd rfl h
  | cons u us ih =>
    intro _ hall w hw
    obtain ⟨hsu, hune, huns⟩ := hall u (List.mem_cons_self _ _)
    match us with
    | [] =>
      show specParts (w ++ u) = [u]
      unfold specParts
      rw [splitSlash_no_slash (fun c hc => by
        rcases List.mem_append.mp hc with hcw | hcu
        · exact isWs_ne_slash (hw c hcw)
        · exact huns c hcu)]
      have hstrip : pyStrip (w ++ u) = u := by
        have := pyStrip_pad hw (t := []) (by simp) hsu hune
        simpa using this
      simp [hstrip, hune]
    | v :: us' =>
      show specParts (w ++ (u ++ sepSpSlashSp ++ joinSep sepSpSlashSp (v :: us')))
        = u :: v :: us'
      have hregroup :
          w ++ (u ++ sepSpSlashSp ++ joinSep sepSpSlashSp (v :: us'))
            = (w ++ u ++ [' ']) ++
                '/' :: (' ' :: joinSep sepSpSlashSp (v :: us')) := by
        simp [sepSpSlashSp]
      rw [hregroup]
      rw [specParts_split (fun c hc => by
        rcases List.mem_append.mp hc with hc1 | hc2
        · rcases List.mem_append.mp hc1 with hcw | hcu
          · exact isWs_ne_slash (hw c hcw)
          · exact huns c hcu
        · simp only [List.mem_singleton] at hc2
          subst hc2
          decide)]
      have hstrip : pyStrip (w ++ u ++ [' ']) = u :=
        pyStrip_pad hw (by simp; decide) hsu hune
      rw [hstrip, if_neg hune]
      congr 1
      have := ih (by simp) (fun q hq => hall q (List.mem_cons_of_mem _ hq))
        [' '] (by simp; decide)
      simpa using this

/-- C7 counterexample: `_smart_deduplicate_specs` is not idempotent.  On
the spec string "rtx 5080 / 16gb memory / 16gb vram rtx 5080" the first
pass replaces "rtx 5080" by the longer series-duplicate
"16gb vram rtx 5080", which the second pass then merges with
"16gb memory" (same capacity, both memory-flavoured), shrinking the string
further. -/
theorem C7_counterexample :
    smartDeduplicateSpecs (smartDeduplicateSpecs
        ("rtx 5080 / 16gb memory / 16gb vram rtx 5080".toList))
      ≠ smartDeduplicateSpecs
          ("rtx 5080 / 16gb memory / 16gb vram rtx 5080".toList) := by
  decide

/-- C7 (amended): the exact-match specification de-duplication of
`models.Product._clean_specifications` *is* idempotent: applying it to its
own output returns the output unchanged, for every spec string.  (The
semantic `_smart_deduplicate_specs` of the Compuzone parsers is **not**
idempotent — see the counterexample.) -/
theorem C7_clean_specifications_idempotent (specs : List Char) :
    cleanSpecifications (cleanSpecifications specs) = cleanSpecifications specs := by
  by_cases h0 : specs = []
  · rw [h0]; decide
  · by_cases h1 : specParts specs = []
    · have hg : cleanSpecifications specs = noSpecInfo := by
        unfold cleanSpecifications; rw [if_neg h0, if_pos h1]
      rw [hg]; decide
    · by_cases h2 : dedupSpecs [] (specParts specs) = []
      · have hg : cleanSpecifications specs = noSpecInfo := by
          unfold cleanSpecifications; rw [if_neg h0, if_neg h1, if_pos h2]
        rw [hg]; decide
      · have hg : cleanSpecifications specs
            = joinSep sepSpSlashSp (dedupSpecs [] (specParts specs)) := by
          unfold cleanSpecifications; rw [if_neg h0, if_neg h1, if_neg h2]
        have hel : ∀ u ∈ dedupSpecs [] (specParts specs),
            pyStrip u = u ∧ u ≠ [] ∧ ∀ c ∈ u, ¬ c = '/' := by
          intro u hu
          have hup : u ∈ specParts specs := dedupSpecs_subset hu
          unfold specParts at hup
          obtain ⟨hmem, hne⟩ := List.mem_filter.mp hup
          obtain ⟨v, hv, rfl⟩ := List.mem_map.mp hmem
          refine ⟨pyStrip_idem v, by simpa using hne, ?_⟩
          intro c hc
          exact mem_splitSlash_no_slash v hv c ((pyStrip_sublist v).subset hc)
        have hjoin : specParts
            (joinSep sepSpSlashSp (dedupSpecs [] (specParts specs)))
              = dedupSpecs [] (specParts specs) := by
          have := specParts_joinSep (dedupSpecs [] (specParts specs)) h2 hel
            [] (by simp)
          simpa using this
        have hjne : joinSep sepSpSlashSp (dedupSpecs [] (specParts specs)) ≠ [] :=
          joinSep_ne_nil h2 (fun u hu => (hel u hu).2.1)
        have hded : dedupSpecs [] (dedupSpecs [] (specParts specs))
            = dedupSpecs [] (specParts specs) := by
          apply dedupSpecs_eq_self [] ((dedupSpecs_inv (specParts specs) []).1)
          intro p hp
          exact ⟨((dedupSpecs_inv (specParts specs) []).2 p hp).2, by simp⟩
        rw [hg]
        unfold cleanSpecifications
        rw [if_neg hjne, hjoin, if_neg h2, hded, if_neg h2]

theorem natDigitChar_isDigit (d : Nat) : (natDigitChar d).isDigit = true := by
  match d with
  | 0 | 1 | 2 | 3 | 4 | 5 | 6 | 7 | 8 | 9 => decide
  | n + 10 =>
    unfold natDigitChar
    rw [List.getD_eq_default _ _ (by simp)]
    decide

theorem natDigitChar_val {d : Nat} (h : d < 10) : (natDigitChar d).toNat - 48 = d := by
  interval_cases d <;> decide

theorem pyInt_append_singleton (xs : List Char) (c : Char) :
    pyInt (xs ++ [c]) = 10 * pyInt xs + (c.toNat - 48) := by
  unfold pyInt
  rw [List.foldl_append]
  rfl

theorem natToDecimalAux_all_digits :
    ∀ (fuel n : Nat), ∀ c ∈ natToDecimalAux fuel n, c.isDigit = true := by
  intro fuel
  induction fuel with
  | zero => intro n c hc; simp [natToDecimalAux] at hc
  | succ fuel ih =>
    intro n c hc
    unfold natToDecimalAux at hc
    by_cases hn : n < 10
    · rw [if_pos hn] at hc
      simp only [List.mem_singleton] at hc
      subst hc
      exact natDigitChar_isDigit n
    · rw [if_neg hn] at hc
      rcases List.mem_append.mp hc with h | h
      · exact ih _ c h
      · simp only [List.mem_singleton] at h
        subst h
        exact natDigitChar_isDigit _

theorem pyInt_natToDecimalAux :
    ∀ (fuel n : Nat), n < 10 ^ fuel → pyInt (natToDecimalAux fuel n) = n := by
  intro fuel
  induction fuel with
  | zero =>
    intro n hn
    interval_cases n
    rfl
  | succ fuel ih =>
    intro n hn
    unfold natToDecimalAux
    by_cases h10 : n < 10
    · rw [if_pos h10]
      have hv : pyInt [natDigitChar n] = (natDigitChar n).toNat - 48 := by
        simp [pyInt]
      rw [hv, natDigitChar_val h10]
    · rw [if_neg h10, pyInt_append_singleton]
      have hdiv : n / 10 < 10 ^ fuel := by
        rw [Nat.pow_succ, Nat.mul_comm] at hn
        exact Nat.div_lt_of_lt_mul hn
      rw [ih _ hdiv, natDigitChar_val (Nat.mod_lt _ (by norm_num))]
      omega

theorem pyInt_natToDecimal (n : Nat) : pyInt (natToDecimal n) = n := by
  apply pyInt_natToDecimalAux
  calc n < 10 ^ n := Nat.lt_pow_self (by norm_num) n
    _ ≤ 10 ^ (n + 1) := Nat.pow_le_pow_right (by norm_num) (Nat.le_succ n)

theorem natToDecimal_ne_nil (n : Nat) : natToDecimal n ≠ [] := by
  unfold natToDecimal natToDecimalAux
  by_cases h : n < 10 <;> simp [h]

theorem chunk3_flatten (l : List Char) : (chunk3 l).flatten = l := by
  match l with
  | [] => rfl
  | [a] => rfl
  | [a, b] => rfl
  | a :: b :: c :: rest =>
    have ih := chunk3_flatten rest
    simp [chunk3, ih]

theorem flatten_reverse_map_reverse (L : List (List Char)) :
    ((L.map List.reverse).reverse).flatten = L.flatten.reverse := by
  induction L with
  | nil => rfl
  | cons u L ih =>
    simp [List.flatten_append, ih, List.reverse_append]

theorem joinSep_filter_digits (ps : List (List Char))
    (h : ∀ part ∈ ps, ∀ c ∈ part, c.isDigit = true) :
    (joinSep [','] ps).filter Char.isDigit = ps.flatten := by
  match ps with
  | [] => rfl
  | [u] =>
    show u.filter Char.isDigit = ([u] : List (List Char)).flatten
    rw [List.filter_eq_self.mpr (h u (by simp))]
    simp
  | u :: v :: rest =>
    have ih := joinSep_filter_digits (v :: rest)
      (fun part hp => h part (List.mem_cons_of_mem _ hp))
    show ((u ++ [','] ++ joinSep [','] (v :: rest)).filter Char.isDigit) = _
    rw [List.filter_append, List.filter_append,
      List.filter_eq_self.mpr (h u (by simp))]
    simp [ih]

theorem digitsOf_commaFormat (n : Nat) : digitsOf (commaFormat n) = natToDecimal n := by
  unfold commaFormat digitsOf
  rw [joinSep_filter_digits]
  · rw [flatten_reverse_map_reverse, chunk3_flatten, List.reverse_reverse]
  · intro part hp c hc
    rw [List.mem_reverse] at hp
    obtain ⟨q, hq, rfl⟩ := List.mem_map.mp hp
    rw [List.mem_reverse] at hc
    have hcf : c ∈ (chunk3 (natToDecimal n).reverse).flatten :=
      List.mem_flatten.mpr ⟨q, hq, hc⟩
    rw [chunk3_flatten, List.mem_reverse] at hcf
    exact natToDecimalAux_all_digits _ _ c hcf

theorem digitsOf_formatted (n : Nat) :
    digitsOf (commaFormat n ++ [wonChar]) = natToDecimal n := by
  unfold digitsOf
  rw [List.filter_append]
  have hw : ([wonChar].filter Char.isDigit) = [] := by decide
  rw [hw, List.append_nil]
  exact digitsOf_commaFormat n

theorem mem_joinSep {sep : List Char} {c : Char} :
    ∀ ps : List (List Char), c ∈ joinSep sep ps → c ∈ sep ∨ ∃ p ∈ ps, c ∈ p := by
  intro ps
  match ps with
  | [] => intro h; simp [joinSep] at h
  | [u] => intro h; exact Or.inr ⟨u, by simp, h⟩
  | u :: v :: rest =>
    intro h
    rcases List.mem_append.mp h with h1 | h2
    · rcases List.mem_append.mp h1 with h3 | h4
      · exact Or.inr ⟨u, by simp, h3⟩
      · exact Or.inl h4
    · rcases mem_joinSep (v :: rest) h2 with h3 | ⟨p, hp, hcp⟩
      · exact Or.inl h3
      · exact Or.inr ⟨p, List.mem_cons_of_mem _ hp, hcp⟩

theorem mem_commaFormat {n : Nat} {c : Char} (hc : c ∈ commaFormat n) :
    c.isDigit = true ∨ c = ',' := by
  unfold commaFormat at hc
  rcases mem_joinSep _ hc with h1 | ⟨p, hp, hcp⟩
  · simp only [List.mem_singleton] at h1
    exact Or.inr h1
  · rw [List.mem_reverse] at hp
    obtain ⟨q, hq, rfl⟩ := List.mem_map.mp hp
    rw [List.mem_reverse] at hcp
    have hcf : c ∈ (chunk3 (natToDecimal n).reverse).flatten :=
      List.mem_flatten.mpr ⟨q, hq, hcp⟩
    rw [chunk3_flatten, List.mem_reverse] at hcf
    exact Or.inl (natToDecimalAux_all_digits _ _ c hcf)

theorem containsSub_eq_true_iff {w : List Char} :
    ∀ {s : List Char}, containsSub w s = true ↔ w <:+: s := by
  intro s
  induction s with
  | nil =>
    show containsSub w [] = true ↔ _
    unfold containsSub
    rw [List.isPrefixOf_iff_prefix, List.prefix_nil, List.infix_nil]
  | cons c rest ih =>
    show containsSub w (c :: rest) = true ↔ _
    unfold containsSub
    rw [Bool.or_eq_true, List.isPrefixOf_iff_prefix, ih, List.infix_cons_iff]

theorem containsSub_head_mem {h : Char} {w' s : List Char}
    (hc : containsSub (h :: w') s = true) : h ∈ s := by
  induction s with
  | nil => simp [containsSub, List.isPrefixOf] at hc
  | cons c rest ih =>
    unfold containsSub at hc
    rw [Bool.or_eq_true] at hc
    rcases hc with h1 | h2
    · have hp := List.isPrefixOf_iff_prefix.mp h1
      rw [(List.cons_prefix_cons.mp hp).1]
      exact List.mem_cons_self _ _
    · exact List.mem_cons_of_mem _ (ih h2)

theorem pyStrip_infix_self (l : List Char) : pyStrip l <:+: l :=
  ((List.rdropWhile_prefix isWs (l.dropWhile isWs)).isInfix).trans
    ((List.dropWhile_suffix isWs).isInfix)

theorem pyLowerChar_preimage {k : Char} (hk : ¬ k ∈ lowerPairs.map Prod.snd) :
    ∀ c, pyLowerChar c = k → c = k := by
  intro c h
  unfold pyLowerChar at h
  cases hf : lowerPairs.find? (fun p => p.1 = c) with
  | none => rw [hf] at h; simpa using h
  | some pr =>
    rw [hf] at h
    simp only [Option.map_some', Option.getD_some] at h
    exact absurd (List.mem_map.mpr ⟨pr, List.mem_of_find?_eq_some hf, h⟩) hk

theorem prefix_pyLower_transfer {w : List Char}
    (hw : ∀ k ∈ w, ¬ k ∈ lowerPairs.map Prod.snd) :
    ∀ s : List Char, w <+: pyLower s → w <+: s := by
  induction w with
  | nil => intro s _; exact List.nil_prefix
  | cons k w' ih =>
    intro s h
    match s with
    | [] => exact absurd (List.prefix_nil.mp h) (by simp)
    | c :: s' =>
      have h2 : k :: w' <+: pyLowerChar c :: pyLower s' := h
      obtain ⟨hk, hrest⟩ := List.cons_prefix_cons.mp h2
      have hc : c = k :=
        pyLowerChar_preimage (hw k (List.mem_cons_self _ _)) c hk.symm
      subst hc
      exact List.cons_prefix_cons.mpr
        ⟨rfl, ih (fun d hd => hw d (List.mem_cons_of_mem _ hd)) s' hrest⟩

theorem infix_pyLower_transfer {w : List Char}
    (hw : ∀ k ∈ w, ¬ k ∈ lowerPairs.map Prod.snd) :
    ∀ s : List Char, w <:+: pyLower s → w <:+: s := by
  intro s
  induction s with
  | nil => intro h; exact h
  | cons c s' ih =>
    intro h
    rcases List.infix_cons_iff.mp h with h1 | h2
    · exact (prefix_pyLower_transfer hw (c :: s') h1).isInfix
    · exact List.infix_cons (ih h2)

theorem prefix_collapse_transfer {w : List Char}
    (hw : ∀ k ∈ w, isWs k = false) :
    ∀ x : List Char, w <+: collapseWsAux false x → w <+: x := by
  induction w with
  | nil => intro x _; exact List.nil_prefix
  | cons k w' ih =>
    intro x h
    match x with
    | [] => exact absurd (List.prefix_nil.mp h) (by simp)
    | c :: rest =>
      unfold collapseWsAux at h
      by_cases hcw : isWs c = true
      · rw [if_pos hcw] at h
        simp only [Bool.false_eq_true, if_false] at h
        have hk := (List.cons_prefix_cons.mp h).1
        have := hw k (List.mem_cons_self _ _)
        rw [hk] at this
        exact absurd this (by decide)
      · rw [if_neg hcw] at h
        obtain ⟨hk, hrest⟩ := List.cons_prefix_cons.mp h
        subst hk
        exact List.cons_prefix_cons.mpr
          ⟨rfl, ih (fun d hd => hw d (List.mem_cons_of_mem _ hd)) rest hrest⟩

theorem infix_collapse_transfer {w : List Char}
    (hw : ∀ k ∈ w, isWs k = false) (hne : w ≠ []) :
    ∀ (x : List Char) (b : Bool), w <:+: collapseWsAux b x → w <:+: x := by
  intro x
  induction x with
  | nil => intro b h; simpa [collapseWsAux] using h
  | cons c rest ih =>
    intro b h
    unfold collapseWsAux at h
    by_cases hcw : isWs c = true
    · rw [if_pos hcw] at h
      cases b with
      | true =>
        simp only [if_true] at h
        exact List.infix_cons (ih true h)
      | false =>
        simp only [Bool.false_eq_true, if_false] at h
        rcases List.infix_cons_iff.mp h with h1 | h2
        · match w with
          | [] => exact absurd rfl hne
          | k :: w' =>
            have hk := (List.cons_prefix_cons.mp h1).1
            have := hw k (List.mem_cons_self _ _)
            rw [hk] at this
            exact absurd this (by decide)
        · exact List.infix_cons (ih true h2)
    · rw [if_neg hcw] at h
      rcases List.infix_cons_iff.mp h with h1 | h2
      · have hp : w <+: collapseWsAux false (c :: rest) := by
          unfold collapseWsAux
          rw [if_neg hcw]
          exact h1
        exact (prefix_collapse_transfer hw _ hp).isInfix
      · exact List.infix_cons (ih false h2)

theorem rdropWhile_append_rtakeWhile (p : Char → Bool) (l : List Char) :
    l.rdropWhile p ++ l.rtakeWhile p = l := by
  rw [List.rdropWhile, List.rtakeWhile, ← List.reverse_append,
    List.takeWhile_append_dropWhile, List.reverse_reverse]

theorem ws_not_digit {c : Char} (h : isWs c = true) : c.isDigit = false := by
  unfold isWs at h
  simp only [Char.isWhitespace, Bool.or_eq_true, decide_eq_true_eq] at h
  rcases h with ((h | h) | h) | h <;> (subst h; decide)

theorem digitsOf_pyStrip (l : List Char) : digitsOf (pyStrip l) = digitsOf l := by
  show ((l.dropWhile isWs).rdropWhile isWs).filter Char.isDigit = l.filter Char.isDigit
  have h3 : ((l.dropWhile isWs).rtakeWhile isWs).filter Char.isDigit = [] :=
    List.filter_eq_nil_iff.mpr (fun c hc => by
      rw [ws_not_digit (List.mem_rtakeWhile_imp hc)]
      simp)
  have h4 : (l.takeWhile isWs).filter Char.isDigit = [] :=
    List.filter_eq_nil_iff.mpr (fun c hc => by
      rw [ws_not_digit (List.mem_takeWhile_imp hc)]
      simp)
  have h2 : ((l.dropWhile isWs).rdropWhile isWs).filter Char.isDigit ++
      ((l.dropWhile isWs).rtakeWhile isWs).filter Char.isDigit =
      (l.dropWhile isWs).filter Char.isDigit := by
    rw [← List.filter_append, rdropWhile_append_rtakeWhile]
  have h5 : (l.takeWhile isWs).filter Char.isDigit ++
      (l.dropWhile isWs).filter Char.isDigit = l.filter Char.isDigit := by
    rw [← List.filter_append, List.takeWhile_append_dropWhile]
  rw [h3, List.append_nil] at h2
  rw [h4, List.nil_append] at h5
  rw [h2, h5]

theorem digitsOf_collapseWsAux :
    ∀ (l : List Char) (b : Bool), digitsOf (collapseWsAux b l) = digitsOf l := by
  intro l
  induction l with
  | nil => intro b; rfl
  | cons c rest ih =>
    intro b
    show digitsOf (collapseWsAux b (c :: rest)) = digitsOf (c :: rest)
    unfold collapseWsAux
    by_cases hcw : isWs c = true
    · rw [if_pos hcw]
      have hcd : c.isDigit = false := ws_not_digit hcw
      cases b with
      | true =>
        simp only [if_true]
        rw [ih true]
        show digitsOf rest = digitsOf (c :: rest)
        unfold digitsOf
        rw [List.filter_cons_of_neg (by simp [hcd])]
      | false =>
        simp only [Bool.false_eq_true, if_false]
        show digitsOf (' ' :: collapseWsAux true rest) = _
        unfold digitsOf
        rw [List.filter_cons_of_neg (by decide),
          List.filter_cons_of_neg (by simp [hcd])]
        exact ih true
    · rw [if_neg hcw]
      show digitsOf (c :: collapseWsAux false rest) = _
      unfold digitsOf
      by_cases hcd : c.isDigit = true
      · rw [List.filter_cons_of_pos (by simp [hcd]),
          List.filter_cons_of_pos (by simp [hcd])]
        rw [show (collapseWsAux false rest).filter Char.isDigit = digitsOf
          (collapseWsAux false rest) from rfl, ih false]
        rfl
      · rw [List.filter_cons_of_neg (by simpa using hcd),
          List.filter_cons_of_neg (by simpa using hcd)]
        exact ih false

theorem digitsOf_cleanString (l : List Char) :
    digitsOf (cleanString l) = digitsOf l := by
  show digitsOf (collapseWsAux false (pyStrip l)) = digitsOf l
  rw [digitsOf_collapseWsAux, digitsOf_pyStrip]

theorem any_digit_iff {l : List Char} :
    l.any Char.isDigit = true ↔ digitsOf l ≠ [] := by
  rw [List.any_eq_true]
  constructor
  · rintro ⟨c, hc, hd⟩ hnil
    exact absurd hd (by simpa using (List.filter_eq_nil_iff.mp hnil) c hc)
  · intro h
    match he : digitsOf l with
    | [] => exact absurd he h
    | c :: tl =>
      have hmem : c ∈ digitsOf l := by rw [he]; exact List.mem_cons_self _ _
      obtain ⟨hc, hd⟩ := List.mem_filter.mp hmem
      exact ⟨c, hc, hd⟩

theorem first_char_not_in_formatted {n : Nat} {h : Char} (hd : h.isDigit = false)
    (hc : ¬ h = ',') (hwon : ¬ h = wonChar) (w' : List Char) :
    containsSub (h :: w') (commaFormat n ++ [wonChar]) = false := by
  by_contra hcon
  rw [Bool.not_eq_false] at hcon
  have hmem := containsSub_head_mem hcon
  rcases List.mem_append.mp hmem with h1 | h2
  · rcases mem_commaFormat h1 with hd2 | hcomma
    · rw [hd] at hd2; cases hd2
    · exact hc hcomma
  · simp only [List.mem_singleton] at h2
    exact hwon h2

theorem isPriceAvailable_formatted (n : Nat) :
    isPriceAvailable (commaFormat n ++ [wonChar]) = true := by
  have t1 : containsSub ("품절".toList) (commaFormat n ++ [wonChar]) = false := by
    have he : "품절".toList = '품' :: "절".toList := rfl
    rw [he]
    exact first_char_not_in_formatted (by decide) (by decide) (by decide) _
  have t2 : containsSub ("가격 문의".toList) (commaFormat n ++ [wonChar]) = false := by
    have he : "가격 문의".toList = '가' :: "격 문의".toList := rfl
    rw [he]
    exact first_char_not_in_formatted (by decide) (by decide) (by decide) _
  have t3 : containsSub ("가격 정보 없음".toList) (commaFormat n ++ [wonChar]) = false := by
    have he : "가격 정보 없음".toList = '가' :: "격 정보 없음".toList := rfl
    rw [he]
    exact first_char_not_in_formatted (by decide) (by decide) (by decide) _
  have t4 : containsSub ("재고없음".toList) (commaFormat n ++ [wonChar]) = false := by
    have he : "재고없음".toList = '재' :: "고없음".toList := rfl
    rw [he]
    exact first_char_not_in_formatted (by decide) (by decide) (by decide) _
  unfold isPriceAvailable unavailableTerms
  simp only [List.any_cons, List.any_nil]
  rw [t1, t2, t3, t4]
  rfl

/-- C10 counterexample: the price string "가격  정보 없음 123원" (double
space) contains a digit, none of the six status words, and not the literal
sentinel "가격 정보 없음" — yet whitespace collapsing in `_clean_string`
manufactures the sentinel, so `get_numeric_price` returns `None` instead of
`Some 123`. -/
theorem C10_counterexample :
    c10Price.any Char.isDigit = true ∧
    ((soldOutWords ++ inquiryWords).all
      (fun w => !(containsSub w c10Price))) = true ∧
    containsSub noPriceInfo c10Price = false ∧
    pyInt (digitsOf c10Price) = 123 ∧
    ((mkProduct ("x".toList) c10Price [] [] []).map
      (fun p => getNumericPrice p.price)).toOption = some none := by
  refine ⟨by decide, by decide, by decide, by decide, by decide⟩

/-- C10 (amended): for every price string that contains at least one digit,
contains none of the status words "품절", "재고없음", "일시품절", "문의",
"전화", "상담", and whose *whitespace-collapsed* form does not contain the
sentinel "가격 정보 없음", constructing a `models.Product` with that price
and calling `get_numeric_price()` returns `Some` of exactly the integer
formed by concatenating all digit runs of the original price string.  (The
claim's original hypothesis — no literal sentinel in the *raw* string — is
insufficient: whitespace collapsing can manufacture the sentinel, see the
counterexample.) -/
theorem C10_price_roundtrip
    (name price specifications product_link site : List Char) (p : MProduct)
    (hok : mkProduct name price specifications product_link site = .ok p)
    (hd : price.any Char.isDigit = true)
    (hw : ∀ w ∈ soldOutWords ++ inquiryWords, containsSub w price = false)
    (hs : containsSub noPriceInfo (cleanString price) = false) :
    getNumericPrice p.price = some (pyInt (digitsOf price)) := by
  unfold mkProduct at hok
  split_ifs at hok with h1 h2
  have hp : p.price = standardizePrice (cleanString price) := by cases hok; rfl
  rw [hp]
  have hdq : digitsOf (cleanString price) = digitsOf price :=
    digitsOf_cleanString price
  have hqne : cleanString price ≠ [] := cleanString_ne_nil h2
  have hdqne : digitsOf (cleanString price) ≠ [] := by
    rw [hdq]; exact any_digit_iff.mp hd
  have hanyq : (cleanString price).any Char.isDigit = true :=
    any_digit_iff.mpr hdqne
  have transfer : ∀ w : List Char, w ≠ [] → (∀ k ∈ w, isWs k = false) →
      (∀ k ∈ w, ¬ k ∈ lowerPairs.map Prod.snd) →
      containsSub w (pyLower (cleanString price)) = true →
      containsSub w price = true := by
    intro w hne hws hk hcon
    rw [containsSub_eq_true_iff] at hcon ⊢
    have i1 : w <:+: cleanString price := infix_pyLower_transfer hk _ hcon
    have i2 : w <:+: pyStrip price := infix_collapse_transfer hws hne _ false i1
    exact i2.trans (pyStrip_infix_self price)
  have transfer2 : ∀ w : List Char, w ≠ [] → (∀ k ∈ w, isWs k = false) →
      containsSub w (cleanString price) = true → containsSub w price = true := by
    intro w hne hws hcon
    rw [containsSub_eq_true_iff] at hcon ⊢
    exact (infix_collapse_transfer hws hne _ false hcon).trans
      (pyStrip_infix_self price)
  have hsold : soldOutWords.any
      (fun w => containsSub w (pyLower (cleanString price))) = false := by
    rw [List.any_eq_false]
    intro w hwmem
    simp only [Bool.not_eq_true]
    by_contra hcon
    rw [Bool.not_eq_false] at hcon
    fin_cases hwmem <;>
      · have := transfer _ (by decide) (by decide) (by decide) hcon
        rw [hw _ (by decide)] at this
        cases this
  have hinq : inquiryWords.any
      (fun w => containsSub w (pyLower (cleanString price))) = false := by
    rw [List.any_eq_false]
    intro w hwmem
    simp only [Bool.not_eq_true]
    by_contra hcon
    rw [Bool.not_eq_false] at hcon
    fin_cases hwmem <;>
      · have := transfer _ (by decide) (by decide) (by decide) hcon
        rw [hw _ (by decide)] at this
        cases this
  unfold standardizePrice
  rw [if_neg hqne, if_neg (by rw [hsold]; simp), if_neg (by rw [hinq]; simp),
    if_pos hanyq]
  by_cases hwon : (cleanString price).getLast? = some wonChar
  · rw [if_pos hwon]
    have t1 : containsSub ("품절".toList) (cleanString price) = false := by
      by_contra hcon
      rw [Bool.not_eq_false] at hcon
      have := transfer2 _ (by decide) (by decide) hcon
      rw [hw _ (by decide)] at this
      cases this
    have t2 : containsSub ("가격 문의".toList) (cleanString price) = false := by
      by_contra hcon
      rw [Bool.not_eq_false] at hcon
      have hsub : containsSub ("문의".toList) (cleanString price) = true := by
        rw [containsSub_eq_true_iff] at hcon ⊢
        exact List.IsInfix.trans (by decide) hcon
      have := transfer2 _ (by decide) (by decide) hsub
      rw [hw ("문의".toList) (by decide)] at this
      cases this
    have t4 : containsSub ("재고없음".toList) (cleanString price) = false := by
      by_contra hcon
      rw [Bool.not_eq_false] at hcon
      have := transfer2 _ (by decide) (by decide) hcon
      rw [hw _ (by decide)] at this
      cases this
    have t3 : containsSub ("가격 정보 없음".toList) (cleanString price) = false := hs
    have hav : isPriceAvailable (cleanString price) = true := by
      unfold isPriceAvailable unavailableTerms
      simp only [List.any_cons, List.any_nil]
      rw [t1, t2, t3, t4]
      rfl
    unfold getNumericPrice
    rw [if_pos hav, if_neg hdqne, hdq]
  · rw [if_neg hwon, if_neg hdqne]
    unfold getNumericPrice
    rw [if_pos (isPriceAvailable_formatted _)]
    rw [if_neg (by rw [digitsOf_formatted]; exact natToDecimal_ne_nil _)]
    rw [show (digitsOf (commaFormat (pyInt (digitsOf (cleanString price)))
        ++ [wonChar])) = natToDecimal (pyInt (digitsOf (cleanString price)))
      from digitsOf_formatted _]
    rw [pyInt_natToDecimal, hdq]

/-- Witness for C10 (amended) at the concrete price "89,900원". -/
theorem C10_price_roundtrip_witness :
    mkProduct ("n".toList) ("89,900원".toList) [] [] []
      = .ok ⟨"n".toList, "89,900원".toList, noSpecInfo, [], []⟩ ∧
    getNumericPrice
        (⟨"n".toList, "89,900원".toList, noSpecInfo, [], []⟩ : MProduct).price
      = some (pyInt (digitsOf ("89,900원".toList))) := by
  refine ⟨by rfl, ?_⟩
  exact C10_price_roundtrip ("n".toList) ("89,900원".toList) [] [] [] _
    (by rfl) (by decide) (by decide) (by decide)

/-- C9: with the capacity filter derived from the keyword "4TB", the
option-variant capacity match keeps option names "4TB" and "4TB (5PACK)",
excludes "2TB", and keeps a synthetic "4096GB" option via unit-normalized
comparison with 1TB == 1024GB. -/
theorem C9_capacity_filter_scenario :
    extractCapacityFromKeyword ("4TB".toList) = some ("4TB".toList) ∧
    matchesCapacityFilter ("4TB".toList) ("4TB".toList) = true ∧
    matchesCapacityFilter ("4TB (5PACK)".toList) ("4TB".toList) = true ∧
    matchesCapacityFilter ("2TB".toList) ("4TB".toList) = false ∧
    matchesCapacityFilter ("4096GB".toList) ("4TB".toList) = true := by decide

/-- C5: for every input product list and every similarity threshold (and
every similarity function, in particular the `SequenceMatcher` ratio used
by `_calculate_similarity`), `group_similar_products` returns a partition
of the input: the concatenation of the output groups' product lists is a
permutation of the input, so every input product appears in exactly one
output group, neither dropped nor duplicated. -/
theorem C5_grouping_partition (sim : List Char → List Char → ℚ) (threshold : ℚ)
    (products : List TProduct) :
    List.Perm
      (((groupSimilarProducts sim threshold products).map ProductGroupT.products).flatten)
      products :=
  grouping_flatten_perm sim threshold products.length products (Nat.le_refl _)

end TotalShoping
